import Mathlib

/-! # Surface scattering of a path tracer (`material.h`)

A shallow embedding of `material.h`: the rejection sampler, mirror reflection,
Snell refraction, Schlick's approximation and the three materials.

Scalars: the source computes in `float`. The definitions ask of the scalar type `K` only
for the operations they use, and the square root is a parameter `sqrt : K → K`, so every
definition is executable. Two arithmetics are used: exact arithmetic, a linearly ordered
field (statements that depend on the square root are made over `ℝ` with `Real.sqrt`), and
the arithmetic of `float` itself, `F32`, in which each operation rounds.

Random stream: `curandState` is a cursor into an infinite sequence of draws and
every function that draws returns the advanced cursor next to its result. The order in
which the three draws of one iteration of the sampler become the three components is a
parameter, since C++ does not fix it.

Loops: the `do … while` of `random_in_unit_sphere` takes a bound on the number
of iterations and answers `none` when the bound is used up; "the call returns"
means that some bound gives `some _`.
-/

set_option autoImplicit false

namespace RayTracer

/-! ## Collaborators declared in headers that are not part of `material.h` -/

/-- Modelled from the spec: the value type `vec3` of the header `vec3.h` (reached through
`ray.h`), "immutable 3-component numeric value (x,y,z)". -/
@[ext]
structure vec3 (K : Type) where
  x : K
  y : K
  z : K

/-- Modelled from the spec: the value type `ray` of the header `ray.h`,
"`origin: Vector3`, `direction: Vector3` (not required to be normalized)". -/
structure ray (K : Type) where
  origin : vec3 K
  direction : vec3 K

/-- Modelled from the spec: the type `hit_record` of the header `hitable.h`, "carries at least
`point` (surface position), `normal`"; `p` and `normal` are the names `material.h` reads. The
reference to the material is left out, no function of `material.h` reads it. -/
structure hit_record (K : Type) where
  p : vec3 K
  normal : vec3 K

/-- Modelled from the spec: the random stream `curandState`, "opaque external per-invocation
handle; consuming a draw advances the stream": a sequence of draws and a cursor into it. -/
structure curandState (K : Type) where
  draws : Nat → K
  pos : Nat

section definitions

variable {K : Type} [Zero K] [One K] [OfNat K 2] [Add K] [Sub K] [Mul K] [Div K] [Neg K]
  [Pow K Nat] [LT K] [LE K] [DecidableRel (fun a b : K => a < b)]
  [DecidableRel (fun a b : K => a ≤ b)]

/-- Modelled from the spec: `curand_uniform`, "each draw returns a value" and "advances the
stream": the draw under the cursor, and the cursor moved by one. -/
def curand_uniform (st : curandState K) : K × curandState K :=
  (st.draws st.pos, ⟨st.draws, st.pos + 1⟩)

/-- Modelled from the spec: vector addition of `vec3.h` ("add"). -/
instance : Add (vec3 K) := ⟨fun a b => ⟨a.x + b.x, a.y + b.y, a.z + b.z⟩⟩

/-- Modelled from the spec: vector subtraction of `vec3.h`. -/
instance : Sub (vec3 K) := ⟨fun a b => ⟨a.x - b.x, a.y - b.y, a.z - b.z⟩⟩

/-- Modelled from the spec: unary minus of `vec3.h` ("negate"). -/
instance : Neg (vec3 K) := ⟨fun a => ⟨-a.x, -a.y, -a.z⟩⟩

/-- Modelled from the spec: the product of a scalar and a vector of `vec3.h`
("scale-by-scalar"); it stands for both `t * v` and `v * t` of the source. -/
instance : SMul K (vec3 K) := ⟨fun t v => ⟨t * v.x, t * v.y, t * v.z⟩⟩

/-- Modelled from the spec: a vector divided by a scalar, `v / t` of `vec3.h`. -/
def vec3.div (v : vec3 K) (t : K) : vec3 K := ⟨v.x / t, v.y / t, v.z / t⟩

/-- Modelled from the spec: `dot` of `vec3.h` ("dot product"). -/
def dot (a b : vec3 K) : K := a.x * b.x + a.y * b.y + a.z * b.z

/-- Modelled from the spec: `vec3::squared_length` of `vec3.h`. -/
def vec3.squared_length (v : vec3 K) : K := v.x * v.x + v.y * v.y + v.z * v.z

/-- Modelled from the spec: `vec3::length` of `vec3.h`, the square root of the squared
length. -/
def vec3.length (sqrt : K → K) (v : vec3 K) : K := sqrt (v.x * v.x + v.y * v.y + v.z * v.z)

/-- Modelled from the spec: `unit_vector` of `vec3.h` ("unit-vector normalization"),
`v / v.length()`. On the zero vector the source divides by zero; no statement below is
made about that input. -/
def unit_vector (sqrt : K → K) (v : vec3 K) : vec3 K := v.div (v.length sqrt)

/-- The zero vector. -/
def vec3.zero : vec3 K := ⟨0, 0, 0⟩

/-! ## `material.h` -/

/-- The candidate point of one iteration of the loop of `random_in_unit_sphere` (line 17), from
the values of the three arguments of the constructor: `2.0f * vec3(a0, a1, a2) - vec3(1,1,1)`. -/
def candidate (a0 a1 a2 : K) : vec3 K := (2 : K) • (⟨a0, a1, a2⟩ : vec3 K) - ⟨1, 1, 1⟩

/-- Of three draws `u0`, `u1`, `u2`, listed in the order in which they were drawn, the one at
position `i`. -/
def nth_draw (u0 u1 u2 : K) (i : Fin 3) : K :=
  if i.val = 0 then u0 else if i.val = 1 then u1 else u2

/-- The function `random_in_unit_sphere` (lines 11-20). The argument `fuel` bounds the number of
iterations of the `do … while`; the source has no such bound. The three calls of
`curand_uniform` on line 17 are arguments of one constructor call and C++ does not fix the
order of their evaluation: `order i` is the position, among the three draws of the iteration,
of the draw that the argument written at place `i` receives. The identity is evaluation in the
order written, the reversal is evaluation from the last argument to the first. -/
def random_in_unit_sphere (order : Equiv.Perm (Fin 3)) :
    Nat → curandState K → Option (vec3 K × curandState K)
  | 0, _ => none
  | fuel + 1, st =>
    let d1 := curand_uniform st
    let d2 := curand_uniform d1.2
    let d3 := curand_uniform d2.2
    let p := candidate (nth_draw d1.1 d2.1 d3.1 (order 0)) (nth_draw d1.1 d2.1 d3.1 (order 1))
      (nth_draw d1.1 d2.1 d3.1 (order 2))
    if p.squared_length ≥ 1 then random_in_unit_sphere order fuel d3.2 else some (p, d3.2)

/-- The function `reflect` (lines 23-26): `v - 2.0f * dot(v,n) * n`. -/
def reflect (v n : vec3 K) : vec3 K := v - (2 * dot v n) • n

/-- The function `refract` (lines 29-43). The reference parameter `refracted` is an argument and
a component of the result: it is overwritten when the function answers `true` and left as it
was when it answers `false`. -/
def refract (sqrt : K → K) (v n : vec3 K) (ni_over_ti : K) (refracted : vec3 K) :
    Bool × vec3 K :=
  let uv := unit_vector sqrt v
  let dt := dot uv n
  let discriminant := 1 - ni_over_ti * ni_over_ti * (1 - dt * dt)
  if discriminant > 0 then
    (true, ni_over_ti • (uv - dt • n) - sqrt discriminant • n)
  else
    (false, refracted)

/-- The function `schlick` (lines 46-51); `pow(x, 5.0f)` is the fifth power. -/
def schlick (cosine ref_idx : K) : K :=
  let r0 := (1 - ref_idx) / (1 + ref_idx)
  let r0 := r0 * r0
  r0 + (1 - r0) * (1 - cosine) ^ 5

/-- What a call of `material::scatter` (line 56) hands back: the returned `bool` and the two
reference parameters `attenuation` and `scattered`. -/
structure scatter_result (K : Type) where
  continues : Bool
  attenuation : vec3 K
  scattered : ray K

/-- The class `lambertian` (lines 60-77). -/
structure lambertian (K : Type) where
  albedo : vec3 K

/-- The method `lambertian::scatter` (lines 68-74); `order` and `fuel` are those of the
sampler. The sum `rec.p + rec.normal + s` and the difference `target - rec.p` are computed as
written, from left to right. -/
def lambertian.scatter (m : lambertian K) (order : Equiv.Perm (Fin 3)) (fuel : Nat)
    (_r_in : ray K) (rec : hit_record K) (local_rand_state : curandState K) :
    Option (scatter_result K × curandState K) :=
  match random_in_unit_sphere order fuel local_rand_state with
  | none => none
  | some (s, st) =>
    let target := rec.p + rec.normal + s
    some (⟨true, m.albedo, ⟨rec.p, target - rec.p⟩⟩, st)

/-- The class `metal` (lines 80-107). -/
structure metal (K : Type) where
  albedo : vec3 K
  fuzz : K

/-- The constructor `metal::metal` (lines 83-94); the source defaults `f` to `0.0f`. -/
def metal.construct (a : vec3 K) (f : K) : metal K :=
  ⟨a, if f < 1 then f else 1⟩

/-- The method `metal::scatter` (lines 96-103); `order` and `fuel` are those of the sampler. -/
def metal.scatter (sqrt : K → K) (m : metal K) (order : Equiv.Perm (Fin 3)) (fuel : Nat)
    (r_in : ray K) (rec : hit_record K) (local_rand_state : curandState K) :
    Option (scatter_result K × curandState K) :=
  let reflected := reflect (unit_vector sqrt r_in.direction) rec.normal
  match random_in_unit_sphere order fuel local_rand_state with
  | none => none
  | some (s, st) =>
    let scattered : ray K := ⟨rec.p, reflected + m.fuzz • s⟩
    some (⟨decide (dot scattered.direction rec.normal > 0), m.albedo, scattered⟩, st)

/-- The class `dielectric` (lines 110-160). -/
structure dielectric (K : Type) where
  ref_idx : K

/-- The locals `outward_normal`, `ni_over_nt` and `cosine` of `dielectric::scatter` after the
first conditional (lines 126-139). -/
def dielectric.branch (sqrt : K → K) (m : dielectric K) (r_in : ray K) (rec : hit_record K) :
    vec3 K × K × K :=
  if dot r_in.direction rec.normal > 0 then
    (-rec.normal, m.ref_idx,
      m.ref_idx * dot r_in.direction rec.normal / r_in.direction.length sqrt)
  else
    (rec.normal, 1 / m.ref_idx,
      -dot r_in.direction rec.normal / r_in.direction.length sqrt)

/-- The locals `reflect_prob` and `refracted` of `dielectric::scatter` after the second
conditional (lines 140-147). `refracted0` is the content of the local `refracted`, which is
declared without a value (line 123). -/
def dielectric.reflect_prob (sqrt : K → K) (m : dielectric K) (r_in : ray K)
    (rec : hit_record K) (refracted0 : vec3 K) : K × vec3 K :=
  let b := m.branch sqrt r_in rec
  let r := refract sqrt r_in.direction b.1 b.2.1 refracted0
  if r.1 then (schlick b.2.2 m.ref_idx, r.2) else (1, r.2)

/-- The method `dielectric::scatter` (lines 117-157). -/
def dielectric.scatter (sqrt : K → K) (m : dielectric K) (r_in : ray K) (rec : hit_record K)
    (refracted0 : vec3 K) (local_rand_state : curandState K) :
    scatter_result K × curandState K :=
  let reflected := reflect r_in.direction rec.normal
  let attenuation : vec3 K := ⟨1, 1, 1⟩
  let rp := m.reflect_prob sqrt r_in rec refracted0
  let d := curand_uniform local_rand_state
  if d.1 < rp.1 then
    (⟨true, attenuation, ⟨rec.p, reflected⟩⟩, d.2)
  else
    (⟨true, attenuation, ⟨rec.p, rp.2⟩⟩, d.2)

/-- The candidate built from the `k`-th triple of draws after the cursor: the point that the
`k`-th iteration of the loop of `random_in_unit_sphere` assigns to `p` (counting from 0). -/
def kth_candidate (order : Equiv.Perm (Fin 3)) (st : curandState K) (k : Nat) : vec3 K :=
  candidate (st.draws (st.pos + 3 * k + (order 0).val))
    (st.draws (st.pos + 3 * k + (order 1).val)) (st.draws (st.pos + 3 * k + (order 2).val))

end definitions

/-! ## The arithmetic of `float`

The source computes in `float`, IEEE 754 binary32. A finite value of that type is a rational
number, and every operation is the exact operation followed by rounding to the nearest value
with a 24-bit significand, a tie going to the even significand. Below `2^-126` the spacing
stays `2^-149` (subnormal numbers). Infinities and NaN are not represented: the model is that
of the source as long as no result reaches `2^128` and no division is by zero, which holds
at every input used below. -/

/-- A finite value of the type `float`. -/
structure F32 where
  val : ℚ

/-- The number of binary digits of `n` minus one, for `n ≥ 1`, by halving `n` at most `fuel`
times. -/
def F32.log2_nat : Nat → Nat → Nat
  | 0, _ => 0
  | fuel + 1, n => if n < 2 then 0 else F32.log2_nat fuel (n / 2) + 1

/-- The binary exponent of `x ≠ 0`: the integer `t` with `2^t ≤ |x| < 2^(t+1)`. -/
def F32.ilog2 (x : ℚ) : ℤ :=
  let t : ℤ := (F32.log2_nat x.num.natAbs x.num.natAbs : ℤ) - (F32.log2_nat x.den x.den : ℤ)
  if (2 : ℚ) ^ t ≤ (if x < 0 then -x else x) then t else t - 1

/-- Rounding of a rational number to the nearest `float`, a tie to the even significand. -/
def F32.round (x : ℚ) : ℚ :=
  if x = 0 then 0 else
    let e : ℤ := max (F32.ilog2 x) (-126) - 23
    let y : ℚ := (if x < 0 then -x else x) / (2 : ℚ) ^ e
    let f : ℤ := ⌊y⌋
    let r : ℚ := y - f
    let m : ℤ :=
      if r < 1 / 2 then f else if 1 / 2 < r then f + 1 else if f % 2 = 0 then f else f + 1
    (if x < 0 then -1 else 1) * m * (2 : ℚ) ^ e

/-- The integer square root, bit by bit: with `r = 0` and `2 ^ i` above the root of `n`, the
largest `q` with `q * q ≤ n`. -/
def F32.isqrt_aux (n : Nat) : Nat → Nat → Nat
  | 0, r => r
  | i + 1, r =>
    if (r + 2 ^ i) * (r + 2 ^ i) ≤ n then F32.isqrt_aux n i (r + 2 ^ i) else F32.isqrt_aux n i r

/-- The square root of a `float`, `sqrt` of the source: the exact root rounded to the nearest
`float`. The argument is scaled by a power of 4 into `[2^46, 2^48)`, so that the integer root
has 24 bits, and the root is rounded up when the argument lies above the square of the
midpoint. -/
def F32.sqrt (x : F32) : F32 :=
  if x.val ≤ 0 then ⟨0⟩ else
    let s : ℤ := (47 - F32.ilog2 x.val) / 2
    let y : ℚ := x.val * (2 : ℚ) ^ (2 * s)
    let f : ℤ := F32.isqrt_aux ⌊y⌋.toNat 24 0
    let h : ℚ := (f : ℚ) * f + f + 1 / 4
    let m : ℤ := if y < h then f else if h < y then f + 1 else if f % 2 = 0 then f else f + 1
    ⟨F32.round (m / (2 : ℚ) ^ s)⟩

instance : Zero F32 := ⟨⟨0⟩⟩

instance : One F32 := ⟨⟨1⟩⟩

instance : OfNat F32 2 := ⟨⟨2⟩⟩

instance : Add F32 := ⟨fun a b => ⟨F32.round (a.val + b.val)⟩⟩

instance : Sub F32 := ⟨fun a b => ⟨F32.round (a.val - b.val)⟩⟩

instance : Mul F32 := ⟨fun a b => ⟨F32.round (a.val * b.val)⟩⟩

instance : Div F32 := ⟨fun a b => ⟨F32.round (a.val / b.val)⟩⟩

instance : Neg F32 := ⟨fun a => ⟨-a.val⟩⟩

instance : LT F32 := ⟨fun a b => a.val < b.val⟩

instance : LE F32 := ⟨fun a b => a.val ≤ b.val⟩

instance : DecidableRel (fun a b : F32 => a < b) :=
  fun a b => inferInstanceAs (Decidable (a.val < b.val))

instance : DecidableRel (fun a b : F32 => a ≤ b) :=
  fun a b => inferInstanceAs (Decidable (a.val ≤ b.val))

/-- The three components of a vector of `float` as rational numbers. -/
def F32.vals (v : vec3 F32) : ℚ × ℚ × ℚ := (v.x.val, v.y.val, v.z.val)

variable {K : Type} [LinearOrderedField K]

/-! ## Vector algebra -/

@[simp]
theorem vec3.add_x (a b : vec3 K) : (a + b).x = a.x + b.x := rfl

@[simp]
theorem vec3.add_y (a b : vec3 K) : (a + b).y = a.y + b.y := rfl

@[simp]
theorem vec3.add_z (a b : vec3 K) : (a + b).z = a.z + b.z := rfl

@[simp]
theorem vec3.sub_x (a b : vec3 K) : (a - b).x = a.x - b.x := rfl

@[simp]
theorem vec3.sub_y (a b : vec3 K) : (a - b).y = a.y - b.y := rfl

@[simp]
theorem vec3.sub_z (a b : vec3 K) : (a - b).z = a.z - b.z := rfl

@[simp]
theorem vec3.neg_x (a : vec3 K) : (-a).x = -a.x := rfl

@[simp]
theorem vec3.neg_y (a : vec3 K) : (-a).y = -a.y := rfl

@[simp]
theorem vec3.neg_z (a : vec3 K) : (-a).z = -a.z := rfl

@[simp]
theorem vec3.smul_x (t : K) (a : vec3 K) : (t • a).x = t * a.x := rfl

@[simp]
theorem vec3.smul_y (t : K) (a : vec3 K) : (t • a).y = t * a.y := rfl

@[simp]
theorem vec3.smul_z (t : K) (a : vec3 K) : (t • a).z = t * a.z := rfl

theorem vec3.squared_length_nonneg (v : vec3 K) : 0 ≤ v.squared_length := by
  unfold vec3.squared_length
  nlinarith [mul_self_nonneg v.x, mul_self_nonneg v.y, mul_self_nonneg v.z]

theorem vec3.squared_length_pos {v : vec3 K} (hv : v ≠ vec3.zero) : 0 < v.squared_length := by
  rcases lt_or_eq_of_le v.squared_length_nonneg with h | h
  · exact h
  · exfalso
    apply hv
    unfold vec3.squared_length at h
    have hx : v.x = 0 := by
      nlinarith [mul_self_nonneg v.x, mul_self_nonneg v.y, mul_self_nonneg v.z]
    have hy : v.y = 0 := by
      nlinarith [mul_self_nonneg v.x, mul_self_nonneg v.y, mul_self_nonneg v.z]
    have hz : v.z = 0 := by
      nlinarith [mul_self_nonneg v.x, mul_self_nonneg v.y, mul_self_nonneg v.z]
    exact vec3.ext hx hy hz

/-- Over the reals a vector has length 1 exactly when its squared length is 1. -/
theorem vec3.length_eq_one_iff (n : vec3 ℝ) :
    n.length Real.sqrt = 1 ↔ n.squared_length = 1 := by
  unfold vec3.length vec3.squared_length
  exact Real.sqrt_eq_one

/-- Over the reals the length of a vector other than zero is positive. -/
theorem vec3.length_pos {v : vec3 ℝ} (hv : v ≠ vec3.zero) : 0 < v.length Real.sqrt := by
  have h := vec3.squared_length_pos hv
  unfold vec3.squared_length at h
  unfold vec3.length
  exact Real.sqrt_pos.mpr h

/-- Mirror reflection negates the component along a normal of squared length 1. -/
theorem dot_reflect (v n : vec3 K) (hn : n.squared_length = 1) :
    dot (reflect v n) n = -dot v n := by
  unfold vec3.squared_length at hn
  simp only [dot, reflect, vec3.sub_x, vec3.sub_y, vec3.sub_z, vec3.smul_x, vec3.smul_y,
    vec3.smul_z]
  linear_combination (-2 * (v.x * n.x + v.y * n.y + v.z * n.z)) * hn

/-! ## Mirror reflection and refraction -/

/-- C1: for every vector `v` and every vector `n` of length 1, over the reals,
`dot(reflect(v, n), n) = -dot(v, n)`, and `reflect(v, n)` is `v - 2*dot(v,n)*n`. -/
theorem reflect_negates_normal_component (v n : vec3 ℝ) (hn : n.length Real.sqrt = 1) :
    reflect v n = v - (2 * dot v n) • n ∧ dot (reflect v n) n = -dot v n :=
  ⟨rfl, dot_reflect v n ((vec3.length_eq_one_iff n).mp hn)⟩

theorem reflect_negates_normal_component_witness :
    (⟨0, 0, 1⟩ : vec3 ℝ).length Real.sqrt = 1 ∧
      dot (reflect (⟨1, 2, -3⟩ : vec3 ℝ) ⟨0, 0, 1⟩) ⟨0, 0, 1⟩ = -dot (⟨1, 2, -3⟩ : vec3 ℝ) ⟨0, 0, 1⟩ :=
  ⟨by simp [vec3.length],
    (reflect_negates_normal_component ⟨1, 2, -3⟩ ⟨0, 0, 1⟩ (by simp [vec3.length])).2⟩

/-- C2: for every `v` other than zero, every `n` and every `ni_over_nt`, `refract` answers
`false` (and leaves `refracted` as it was) if and only if
`1 - ni_over_nt^2 * (1 - dt^2) ≤ 0` with `dt = dot(unit(v), n)`; in the other case it answers
`true` with `refracted = ni_over_nt*(unit(v) - n*dt) - n*sqrt(1 - ni_over_nt^2*(1 - dt^2))`. -/
theorem refract_fails_iff (v n : vec3 ℝ) (ni_over_nt : ℝ) (refracted : vec3 ℝ)
    (_hv : v ≠ vec3.zero) :
    ((refract Real.sqrt v n ni_over_nt refracted).1 = false ↔
        1 - ni_over_nt ^ 2 * (1 - dot (unit_vector Real.sqrt v) n ^ 2) ≤ 0) ∧
      (1 - ni_over_nt ^ 2 * (1 - dot (unit_vector Real.sqrt v) n ^ 2) ≤ 0 →
        refract Real.sqrt v n ni_over_nt refracted = (false, refracted)) ∧
      (¬ 1 - ni_over_nt ^ 2 * (1 - dot (unit_vector Real.sqrt v) n ^ 2) ≤ 0 →
        refract Real.sqrt v n ni_over_nt refracted =
          (true, ni_over_nt • (unit_vector Real.sqrt v - dot (unit_vector Real.sqrt v) n • n)
            - Real.sqrt (1 - ni_over_nt ^ 2 * (1 - dot (unit_vector Real.sqrt v) n ^ 2)) • n)) := by
  have e : 1 - ni_over_nt * ni_over_nt *
        (1 - dot (unit_vector Real.sqrt v) n * dot (unit_vector Real.sqrt v) n)
      = 1 - ni_over_nt ^ 2 * (1 - dot (unit_vector Real.sqrt v) n ^ 2) := by ring
  unfold refract
  simp only [e]
  by_cases h : 1 - ni_over_nt ^ 2 * (1 - dot (unit_vector Real.sqrt v) n ^ 2) > 0
  · have h' : ¬ 1 - ni_over_nt ^ 2 * (1 - dot (unit_vector Real.sqrt v) n ^ 2) ≤ 0 :=
      not_le.mpr h
    simp [h, h']
  · have h' : 1 - ni_over_nt ^ 2 * (1 - dot (unit_vector Real.sqrt v) n ^ 2) ≤ 0 :=
      not_lt.mp h
    simp [h, h']

theorem refract_fails_iff_witness :
    (⟨0, 0, -1⟩ : vec3 ℝ) ≠ vec3.zero ∧
      ((refract Real.sqrt (⟨0, 0, -1⟩ : vec3 ℝ) ⟨0, 0, 1⟩ 2 ⟨7, 7, 7⟩).1 = false ↔
        1 - (2 : ℝ) ^ 2 * (1 - dot (unit_vector Real.sqrt (⟨0, 0, -1⟩ : vec3 ℝ)) ⟨0, 0, 1⟩ ^ 2)
          ≤ 0) :=
  ⟨by simp [vec3.zero],
    (refract_fails_iff ⟨0, 0, -1⟩ ⟨0, 0, 1⟩ 2 ⟨7, 7, 7⟩ (by simp [vec3.zero])).1⟩

/-- C3: Snell's law, conservation of the tangential component: for every `v` other than zero,
every `n` of length 1 and every `ni_over_nt` for which `refract` answers `true` with the vector
`r`, `r - dot(r,n)*n = ni_over_nt * (unit(v) - dot(unit(v),n)*n)`. -/
theorem refract_tangential_component (v n : vec3 ℝ) (ni_over_nt : ℝ) (refracted : vec3 ℝ)
    (_hv : v ≠ vec3.zero) (hn : n.length Real.sqrt = 1)
    (h : (refract Real.sqrt v n ni_over_nt refracted).1 = true) :
    (refract Real.sqrt v n ni_over_nt refracted).2
        - dot (refract Real.sqrt v n ni_over_nt refracted).2 n • n
      = ni_over_nt • (unit_vector Real.sqrt v - dot (unit_vector Real.sqrt v) n • n) := by
  have hn1 := (vec3.length_eq_one_iff n).mp hn
  unfold vec3.squared_length at hn1
  unfold refract at h ⊢
  simp only [] at h ⊢
  split_ifs at h ⊢ with hd
  · generalize Real.sqrt
        (1 - ni_over_nt * ni_over_nt *
          (1 - dot (unit_vector Real.sqrt v) n * dot (unit_vector Real.sqrt v) n)) = S
    generalize unit_vector Real.sqrt v = u
    ext
    · simp only [dot, vec3.sub_x, vec3.sub_y, vec3.sub_z, vec3.smul_x, vec3.smul_y, vec3.smul_z]
      linear_combination
        ((S + ni_over_nt * (u.x * n.x + u.y * n.y + u.z * n.z)) * n.x) * hn1
    · simp only [dot, vec3.sub_x, vec3.sub_y, vec3.sub_z, vec3.smul_x, vec3.smul_y, vec3.smul_z]
      linear_combination
        ((S + ni_over_nt * (u.x * n.x + u.y * n.y + u.z * n.z)) * n.y) * hn1
    · simp only [dot, vec3.sub_x, vec3.sub_y, vec3.sub_z, vec3.smul_x, vec3.smul_y, vec3.smul_z]
      linear_combination
        ((S + ni_over_nt * (u.x * n.x + u.y * n.y + u.z * n.z)) * n.z) * hn1

theorem refract_tangential_component_witness :
    (⟨0, 0, -1⟩ : vec3 ℝ) ≠ vec3.zero ∧ (⟨0, 0, 1⟩ : vec3 ℝ).length Real.sqrt = 1 ∧
      (refract Real.sqrt (⟨0, 0, -1⟩ : vec3 ℝ) ⟨0, 0, 1⟩ (1 / 2) ⟨7, 7, 7⟩).1 = true ∧
      (refract Real.sqrt (⟨0, 0, -1⟩ : vec3 ℝ) ⟨0, 0, 1⟩ (1 / 2) ⟨7, 7, 7⟩).2
          - dot (refract Real.sqrt (⟨0, 0, -1⟩ : vec3 ℝ) ⟨0, 0, 1⟩ (1 / 2) ⟨7, 7, 7⟩).2
              (⟨0, 0, 1⟩ : vec3 ℝ) • (⟨0, 0, 1⟩ : vec3 ℝ)
        = (1 / 2 : ℝ) • (unit_vector Real.sqrt (⟨0, 0, -1⟩ : vec3 ℝ)
            - dot (unit_vector Real.sqrt (⟨0, 0, -1⟩ : vec3 ℝ)) (⟨0, 0, 1⟩ : vec3 ℝ)
              • (⟨0, 0, 1⟩ : vec3 ℝ)) :=
  ⟨by simp [vec3.zero], by simp [vec3.length],
    by simp [refract, unit_vector, vec3.length, vec3.div, dot],
    refract_tangential_component ⟨0, 0, -1⟩ ⟨0, 0, 1⟩ (1 / 2) ⟨7, 7, 7⟩ (by simp [vec3.zero])
      (by simp [vec3.length]) (by simp [refract, unit_vector, vec3.length, vec3.div, dot])⟩

/-! ## Schlick's approximation and the reflection probability of the dielectric -/

/-- The squared ratio `r0` of `schlick` lies in `[0, 1)` for a positive index. -/
theorem schlick_r0_bounds {ref_idx : K} (hr : 0 < ref_idx) :
    0 ≤ (1 - ref_idx) / (1 + ref_idx) * ((1 - ref_idx) / (1 + ref_idx)) ∧
      (1 - ref_idx) / (1 + ref_idx) * ((1 - ref_idx) / (1 + ref_idx)) < 1 := by
  have hp : 0 < 1 + ref_idx := by linarith
  have h1 : (1 - ref_idx) / (1 + ref_idx) < 1 := by
    rw [div_lt_one hp]
    linarith
  have h2 : -1 < (1 - ref_idx) / (1 + ref_idx) := by
    rw [lt_div_iff₀ hp]
    linarith
  refine ⟨mul_self_nonneg _, ?_⟩
  nlinarith

/-- For a positive index and a cosine that is not negative, `schlick` is at most 1. -/
theorem schlick_le_one {cosine ref_idx : K} (hr : 0 < ref_idx) (hc : 0 ≤ cosine) :
    schlick cosine ref_idx ≤ 1 := by
  obtain ⟨_, h1⟩ := schlick_r0_bounds hr
  have hp : (1 - cosine) ^ 5 ≤ 1 := by
    rcases le_total 0 (1 - cosine) with h | h
    · exact pow_le_one₀ h (by linarith)
    · have : (1 - cosine) ^ 5 ≤ 0 := Odd.pow_nonpos (by decide) h
      linarith
  unfold schlick
  simp only []
  nlinarith

/-- For a positive index and a cosine of at most 1, `schlick` is at least `r0`, hence not
negative. -/
theorem schlick_ge_r0 {cosine ref_idx : K} (hr : 0 < ref_idx) (hc : cosine ≤ 1) :
    (1 - ref_idx) / (1 + ref_idx) * ((1 - ref_idx) / (1 + ref_idx)) ≤ schlick cosine ref_idx := by
  obtain ⟨_, h1⟩ := schlick_r0_bounds hr
  have hp : 0 ≤ (1 - cosine) ^ 5 := pow_nonneg (by linarith) 5
  unfold schlick
  simp only []
  nlinarith

/-- The inequality of Cauchy and Schwarz for `dot`. -/
theorem dot_sq_le (a b : vec3 K) : dot a b ^ 2 ≤ a.squared_length * b.squared_length := by
  unfold dot vec3.squared_length
  nlinarith [sq_nonneg (a.x * b.y - a.y * b.x), sq_nonneg (a.x * b.z - a.z * b.x),
    sq_nonneg (a.y * b.z - a.z * b.y)]

/-- Over the reals the product with a vector of length 1 is bounded by the length. -/
theorem abs_dot_le_length (d n : vec3 ℝ) (hn : n.length Real.sqrt = 1) :
    |dot d n| ≤ d.length Real.sqrt := by
  have h := dot_sq_le d n
  rw [(vec3.length_eq_one_iff n).mp hn, mul_one] at h
  unfold vec3.length
  unfold vec3.squared_length at h
  exact Real.abs_le_sqrt h

/-- The local `cosine` of `dielectric::scatter` is never negative. -/
theorem dielectric.cosine_nonneg (m : dielectric ℝ) (r_in : ray ℝ) (rec : hit_record ℝ)
    (hr : 0 < m.ref_idx) (hd : r_in.direction ≠ vec3.zero) :
    0 ≤ (m.branch Real.sqrt r_in rec).2.2 := by
  have hl := vec3.length_pos hd
  unfold dielectric.branch
  split_ifs with h
  · exact div_nonneg (mul_nonneg hr.le (le_of_lt h)) hl.le
  · exact div_nonneg (by linarith) hl.le

/-- The local `cosine` of `dielectric::scatter` is at most 1 on the entering branch, for an index
of at most 1, and whenever `ref_idx * dot(d,n) / length(d) ≤ 1`. -/
theorem dielectric.cosine_le_one (m : dielectric ℝ) (r_in : ray ℝ) (rec : hit_record ℝ)
    (hr : 0 < m.ref_idx) (hn : rec.normal.length Real.sqrt = 1)
    (hd : r_in.direction ≠ vec3.zero)
    (hc : dot r_in.direction rec.normal ≤ 0 ∨ m.ref_idx ≤ 1 ∨
      m.ref_idx * dot r_in.direction rec.normal / r_in.direction.length Real.sqrt ≤ 1) :
    (m.branch Real.sqrt r_in rec).2.2 ≤ 1 := by
  have hl := vec3.length_pos hd
  have hcs := abs_le.mp (abs_dot_le_length r_in.direction rec.normal hn)
  unfold dielectric.branch
  split_ifs with h
  · simp only []
    rcases hc with hc | hc | hc
    · linarith
    · rw [div_le_one hl]
      nlinarith [hcs.2]
    · exact hc
  · simp only []
    rw [div_le_one hl]
    linarith [hcs.1]

/-- For a positive index, `schlick` is at least 0 exactly when
`4 * ref_idx * (cosine - 1)^5 ≤ (1 - ref_idx)^2`. -/
theorem schlick_nonneg_iff {cosine ref_idx : K} (hr : 0 < ref_idx) :
    0 ≤ schlick cosine ref_idx ↔ 4 * ref_idx * (cosine - 1) ^ 5 ≤ (1 - ref_idx) ^ 2 := by
  have hp : 0 < 1 + ref_idx := by linarith
  have hp2 : 0 < (1 + ref_idx) ^ 2 := pow_pos hp 2
  have key : schlick cosine ref_idx * (1 + ref_idx) ^ 2
      = (1 - ref_idx) ^ 2 - 4 * ref_idx * (cosine - 1) ^ 5 := by
    unfold schlick
    simp only []
    field_simp
    ring
  constructor
  · intro h
    have h2 : 0 ≤ schlick cosine ref_idx * (1 + ref_idx) ^ 2 := mul_nonneg h hp2.le
    rw [key] at h2
    linarith
  · intro h
    have h2 : 0 ≤ schlick cosine ref_idx * (1 + ref_idx) ^ 2 := by
      rw [key]
      linarith
    exact nonneg_of_mul_nonneg_left h2 hp2

/-- A cosine above 1 arises only on the exiting branch of `dielectric::scatter`, and is then at
most `ref_idx`. -/
theorem dielectric.cosine_le_ref_idx (m : dielectric ℝ) (r_in : ray ℝ) (rec : hit_record ℝ)
    (hr : 0 < m.ref_idx) (hn : rec.normal.length Real.sqrt = 1)
    (hd : r_in.direction ≠ vec3.zero) (hc : 1 < (m.branch Real.sqrt r_in rec).2.2) :
    (m.branch Real.sqrt r_in rec).2.2 ≤ m.ref_idx := by
  have hl := vec3.length_pos hd
  have hcs := abs_le.mp (abs_dot_le_length r_in.direction rec.normal hn)
  unfold dielectric.branch at hc ⊢
  split_ifs at hc ⊢ with h
  · simp only [] at hc ⊢
    rw [div_le_iff₀ hl]
    exact mul_le_mul_of_nonneg_left hcs.2 hr.le
  · simp only [] at hc
    rw [lt_div_iff₀ hl] at hc
    linarith [hcs.1]

/-- An index with `4 * ref_idx * (ref_idx - 1)^3 ≤ 1` keeps `schlick` from going negative at
every cosine that `dielectric::scatter` computes. -/
theorem schlick_threshold {cosine ref_idx : K} (hr : 0 < ref_idx)
    (ht : 4 * ref_idx * (ref_idx - 1) ^ 3 ≤ 1) (hc : 1 < cosine → cosine ≤ ref_idx) :
    4 * ref_idx * (cosine - 1) ^ 5 ≤ (1 - ref_idx) ^ 2 := by
  rcases le_or_lt cosine 1 with h | h
  · have h5 : (cosine - 1) ^ 5 ≤ 0 := Odd.pow_nonpos (by decide) (by linarith)
    nlinarith [sq_nonneg (1 - ref_idx)]
  · have h1 : 0 ≤ cosine - 1 := by linarith
    have h2 : cosine - 1 ≤ ref_idx - 1 := by linarith [hc h]
    have h5 : (cosine - 1) ^ 5 ≤ (ref_idx - 1) ^ 5 := pow_le_pow_left₀ h1 h2 5
    have h6 : 4 * ref_idx * (cosine - 1) ^ 5 ≤ 4 * ref_idx * (ref_idx - 1) ^ 5 :=
      mul_le_mul_of_nonneg_left h5 (by linarith)
    have h7 : 4 * ref_idx * (ref_idx - 1) ^ 5
        = 4 * ref_idx * (ref_idx - 1) ^ 3 * (1 - ref_idx) ^ 2 := by ring
    have h8 : 4 * ref_idx * (ref_idx - 1) ^ 3 * (1 - ref_idx) ^ 2 ≤ 1 * (1 - ref_idx) ^ 2 :=
      mul_le_mul_of_nonneg_right ht (sq_nonneg _)
    linarith

/-- The value of `reflect_prob` when the ray leaves along the normal `(0,0,1)`. -/
theorem dielectric.reflect_prob_normal_exit (m : dielectric ℝ) (o p refracted0 : vec3 ℝ) :
    (m.reflect_prob Real.sqrt ⟨o, ⟨0, 0, 1⟩⟩ ⟨p, ⟨0, 0, 1⟩⟩ refracted0).1
      = schlick m.ref_idx m.ref_idx := by
  simp [dielectric.reflect_prob, dielectric.branch, refract, unit_vector, vec3.length,
    vec3.div, dot]

/-- C4, as the code has it: for every `ref_idx > 0`, every hit normal of length 1 and every
incoming direction other than zero, `reflect_prob ≤ 1`, and `reflect_prob ≥ 0` if and only if
`refract` answers `false` or `4 * ref_idx * (cosine - 1)^5 ≤ (1 - ref_idx)^2`, `cosine` being
the local that the branch computes. So `reflect_prob` lies in `[0, 1]` on the entering branch
(`dot(d,n) ≤ 0`), whenever `cosine ≤ 1`, and on every input when
`4 * ref_idx * (ref_idx - 1)^3 ≤ 1`, which every `ref_idx ≤ 3/2` meets; it is 1 when `refract`
answers `false`; and when `4 * ref_idx * (ref_idx - 1)^3 > 1` it is negative for the ray that
leaves along the normal `(0,0,1)`. -/
theorem dielectric_reflect_prob_bounds (m : dielectric ℝ) (r_in : ray ℝ) (rec : hit_record ℝ)
    (refracted0 : vec3 ℝ) (hr : 0 < m.ref_idx) (hn : rec.normal.length Real.sqrt = 1)
    (hd : r_in.direction ≠ vec3.zero) :
    (m.reflect_prob Real.sqrt r_in rec refracted0).1 ≤ 1 ∧
      (0 ≤ (m.reflect_prob Real.sqrt r_in rec refracted0).1 ↔
        (refract Real.sqrt r_in.direction (m.branch Real.sqrt r_in rec).1
            (m.branch Real.sqrt r_in rec).2.1 refracted0).1 = false ∨
          4 * m.ref_idx * ((m.branch Real.sqrt r_in rec).2.2 - 1) ^ 5
            ≤ (1 - m.ref_idx) ^ 2) ∧
      (dot r_in.direction rec.normal ≤ 0 →
        0 ≤ (m.reflect_prob Real.sqrt r_in rec refracted0).1) ∧
      ((m.branch Real.sqrt r_in rec).2.2 ≤ 1 →
        0 ≤ (m.reflect_prob Real.sqrt r_in rec refracted0).1) ∧
      (4 * m.ref_idx * (m.ref_idx - 1) ^ 3 ≤ 1 →
        0 ≤ (m.reflect_prob Real.sqrt r_in rec refracted0).1) ∧
      (m.ref_idx ≤ 3 / 2 → 0 ≤ (m.reflect_prob Real.sqrt r_in rec refracted0).1) ∧
      ((refract Real.sqrt r_in.direction (m.branch Real.sqrt r_in rec).1
            (m.branch Real.sqrt r_in rec).2.1 refracted0).1 = false →
        (m.reflect_prob Real.sqrt r_in rec refracted0).1 = 1) ∧
      (1 < 4 * m.ref_idx * (m.ref_idx - 1) ^ 3 →
        (m.reflect_prob Real.sqrt ⟨r_in.origin, ⟨0, 0, 1⟩⟩ ⟨rec.p, ⟨0, 0, 1⟩⟩ refracted0).1
          < 0) := by
  have h0 := dielectric.cosine_nonneg m r_in rec hr hd
  have hiff : 0 ≤ (m.reflect_prob Real.sqrt r_in rec refracted0).1 ↔
      (refract Real.sqrt r_in.direction (m.branch Real.sqrt r_in rec).1
          (m.branch Real.sqrt r_in rec).2.1 refracted0).1 = false ∨
        4 * m.ref_idx * ((m.branch Real.sqrt r_in rec).2.2 - 1) ^ 5 ≤ (1 - m.ref_idx) ^ 2 := by
    unfold dielectric.reflect_prob
    simp only []
    split_ifs with hs
    · simp only [hs, Bool.true_eq_false, false_or]
      exact schlick_nonneg_iff hr
    · simp only [Bool.not_eq_true] at hs
      simp [hs]
  have hle : ∀ c : ℝ, c ≤ 1 → 4 * m.ref_idx * (c - 1) ^ 5 ≤ (1 - m.ref_idx) ^ 2 := by
    intro c hc
    have h5 : (c - 1) ^ 5 ≤ 0 := Odd.pow_nonpos (by decide) (by linarith)
    nlinarith [sq_nonneg (1 - m.ref_idx)]
  have hthr : 4 * m.ref_idx * (m.ref_idx - 1) ^ 3 ≤ 1 →
      0 ≤ (m.reflect_prob Real.sqrt r_in rec refracted0).1 := by
    intro ht
    exact hiff.mpr (Or.inr (schlick_threshold hr ht
      (dielectric.cosine_le_ref_idx m r_in rec hr hn hd)))
  refine ⟨?_, hiff, ?_, ?_, hthr, ?_, ?_, ?_⟩
  · unfold dielectric.reflect_prob
    simp only []
    split_ifs
    · exact schlick_le_one hr h0
    · exact le_refl _
  · intro he
    exact hiff.mpr (Or.inr (hle _
      (dielectric.cosine_le_one m r_in rec hr hn hd (Or.inl he))))
  · intro hc
    exact hiff.mpr (Or.inr (hle _ hc))
  · intro h32
    apply hthr
    rcases le_or_lt m.ref_idx 1 with h1 | h1
    · have h3 : (m.ref_idx - 1) ^ 3 ≤ 0 := Odd.pow_nonpos (by decide) (by linarith)
      nlinarith
    · have h3 : (m.ref_idx - 1) ^ 3 ≤ (1 / 2 : ℝ) ^ 3 :=
        pow_le_pow_left₀ (by linarith) (by linarith) 3
      have h4 : 0 ≤ (m.ref_idx - 1) ^ 3 := pow_nonneg (by linarith) 3
      nlinarith
  · intro hf
    unfold dielectric.reflect_prob
    simp [hf]
  · intro ht
    rw [dielectric.reflect_prob_normal_exit]
    by_contra hneg
    have h1 := (schlick_nonneg_iff hr).mp (not_lt.mp hneg)
    have hr1 : 1 < m.ref_idx := by
      by_contra hc
      have h3 : (m.ref_idx - 1) ^ 3 ≤ 0 := Odd.pow_nonpos (by decide) (by linarith)
      nlinarith
    have h7 : 4 * m.ref_idx * (m.ref_idx - 1) ^ 5
        = 4 * m.ref_idx * (m.ref_idx - 1) ^ 3 * (1 - m.ref_idx) ^ 2 := by ring
    have hsq : 0 < (1 - m.ref_idx) ^ 2 := by
      have : 1 - m.ref_idx ≠ 0 := by linarith
      positivity
    rw [h7] at h1
    nlinarith

theorem dielectric_reflect_prob_bounds_witness :
    (0 : ℝ) < (⟨3 / 2⟩ : dielectric ℝ).ref_idx ∧
      (⟨0, 0, 1⟩ : vec3 ℝ).length Real.sqrt = 1 ∧ (⟨0, 0, 1⟩ : vec3 ℝ) ≠ vec3.zero ∧
      ((⟨3 / 2⟩ : dielectric ℝ).reflect_prob Real.sqrt ⟨⟨0, 0, -1⟩, ⟨0, 0, 1⟩⟩
        ⟨⟨0, 0, 0⟩, ⟨0, 0, 1⟩⟩ ⟨7, 7, 7⟩).1 ≤ 1 ∧
      0 ≤ ((⟨3 / 2⟩ : dielectric ℝ).reflect_prob Real.sqrt ⟨⟨0, 0, -1⟩, ⟨0, 0, 1⟩⟩
        ⟨⟨0, 0, 0⟩, ⟨0, 0, 1⟩⟩ ⟨7, 7, 7⟩).1 := by
  have h := dielectric_reflect_prob_bounds ⟨3 / 2⟩ ⟨⟨0, 0, -1⟩, ⟨0, 0, 1⟩⟩
    ⟨⟨0, 0, 0⟩, ⟨0, 0, 1⟩⟩ ⟨7, 7, 7⟩ (by norm_num) (by simp [vec3.length])
    (by simp [vec3.zero])
  exact ⟨by norm_num, by simp [vec3.length], by simp [vec3.zero], h.1,
    h.2.2.2.2.2.1 (by norm_num)⟩

/-- C4 as stated fails on the exiting branch: with `ref_idx = 3`, hit normal `(0,0,1)` and
incoming direction `(0,0,1)` the refraction succeeds, `cosine = 3` and
`reflect_prob = schlick(3, 3) = -95/4`, which is negative. -/
theorem dielectric_reflect_prob_negative :
    (0 : ℝ) < (⟨3⟩ : dielectric ℝ).ref_idx ∧
      (⟨0, 0, 1⟩ : vec3 ℝ).length Real.sqrt = 1 ∧ (⟨0, 0, 1⟩ : vec3 ℝ) ≠ vec3.zero ∧
      ((⟨3⟩ : dielectric ℝ).reflect_prob Real.sqrt ⟨⟨0, 0, -1⟩, ⟨0, 0, 1⟩⟩
        ⟨⟨0, 0, 0⟩, ⟨0, 0, 1⟩⟩ ⟨7, 7, 7⟩).1 = -95 / 4 ∧
      ¬ (0 ≤ ((⟨3⟩ : dielectric ℝ).reflect_prob Real.sqrt ⟨⟨0, 0, -1⟩, ⟨0, 0, 1⟩⟩
          ⟨⟨0, 0, 0⟩, ⟨0, 0, 1⟩⟩ ⟨7, 7, 7⟩).1 ∧
        ((⟨3⟩ : dielectric ℝ).reflect_prob Real.sqrt ⟨⟨0, 0, -1⟩, ⟨0, 0, 1⟩⟩
          ⟨⟨0, 0, 0⟩, ⟨0, 0, 1⟩⟩ ⟨7, 7, 7⟩).1 ≤ 1) := by
  have e : ((⟨3⟩ : dielectric ℝ).reflect_prob Real.sqrt ⟨⟨0, 0, -1⟩, ⟨0, 0, 1⟩⟩
        ⟨⟨0, 0, 0⟩, ⟨0, 0, 1⟩⟩ ⟨7, 7, 7⟩).1 = -95 / 4 := by
    simp [dielectric.reflect_prob, dielectric.branch, refract, unit_vector, vec3.length,
      vec3.div, dot, schlick]
    norm_num
  refine ⟨by norm_num, by simp [vec3.length], by simp [vec3.zero], e, ?_⟩
  rw [e]
  norm_num

/-! ## The rejection sampler -/

/-- The draw at position `i` of three consecutive draws of a stream. -/
theorem nth_draw_eq {A : Type} (f : Nat → A) (n : Nat) (i : Fin 3) :
    nth_draw (f n) (f (n + 1)) (f (n + 1 + 1)) i = f (n + i.val) := by
  obtain ⟨v, hv⟩ := i
  unfold nth_draw
  interval_cases v <;> simp

/-- One iteration of the loop of `random_in_unit_sphere`. -/
theorem random_in_unit_sphere_succ (order : Equiv.Perm (Fin 3)) (fuel : Nat)
    (st : curandState K) :
    random_in_unit_sphere order (fuel + 1) st =
      if (kth_candidate order st 0).squared_length ≥ 1 then
        random_in_unit_sphere order fuel ⟨st.draws, st.pos + 3⟩
      else some (kth_candidate order st 0, ⟨st.draws, st.pos + 3⟩) := by
  simp only [random_in_unit_sphere, curand_uniform, kth_candidate, nth_draw_eq, Nat.mul_zero,
    Nat.add_zero, Nat.add_assoc]

/-- Moving the cursor by one triple shifts the numbering of the candidates by one. -/
theorem kth_candidate_shift (order : Equiv.Perm (Fin 3)) (st : curandState K) (j : Nat) :
    kth_candidate order ⟨st.draws, st.pos + 3⟩ j = kth_candidate order st (j + 1) := by
  have e0 : st.pos + 3 + 3 * j = st.pos + 3 * (j + 1) := by ring
  simp only [kth_candidate, e0]

/-- Within `fuel` iterations the sampler returns `(p, st')` exactly when some `k < fuel` is the
number of the first candidate of squared length below 1, `p` is that candidate and `st'` is
the cursor moved past `k + 1` triples. -/
theorem random_in_unit_sphere_eq_some_iff (order : Equiv.Perm (Fin 3)) (fuel : Nat) (st : curandState K) (p : vec3 K)
    (st' : curandState K) :
    random_in_unit_sphere order fuel st = some (p, st') ↔
      ∃ k, k < fuel ∧ (∀ j, j < k → (kth_candidate order st j).squared_length ≥ 1) ∧
        (kth_candidate order st k).squared_length < 1 ∧ p = kth_candidate order st k ∧
        st' = ⟨st.draws, st.pos + 3 * (k + 1)⟩ := by
  induction fuel generalizing st with
  | zero => simp [random_in_unit_sphere]
  | succ fuel ih =>
    rw [random_in_unit_sphere_succ]
    by_cases h : (kth_candidate order st 0).squared_length ≥ 1
    · rw [if_pos h, ih]
      constructor
      · rintro ⟨k, hk, hrej, hacc, hp, hst⟩
        refine ⟨k + 1, Nat.succ_lt_succ hk, ?_, ?_, ?_, ?_⟩
        · intro j hj
          cases j with
          | zero => exact h
          | succ j =>
            rw [← kth_candidate_shift]
            exact hrej j (Nat.lt_of_succ_lt_succ hj)
        · rw [← kth_candidate_shift]
          exact hacc
        · rw [← kth_candidate_shift]
          exact hp
        · rw [hst]
          have e : st.pos + 3 + 3 * (k + 1) = st.pos + 3 * (k + 1 + 1) := by ring
          simp only [e]
      · rintro ⟨k, hk, hrej, hacc, hp, hst⟩
        cases k with
        | zero => exact absurd h (not_le.mpr hacc)
        | succ k =>
          refine ⟨k, Nat.lt_of_succ_lt_succ hk, ?_, ?_, ?_, ?_⟩
          · intro j hj
            rw [kth_candidate_shift]
            exact hrej (j + 1) (Nat.succ_lt_succ hj)
          · rw [kth_candidate_shift]
            exact hacc
          · rw [kth_candidate_shift]
            exact hp
          · rw [hst]
            have e : st.pos + 3 + 3 * (k + 1) = st.pos + 3 * (k + 1 + 1) := by ring
            simp only [e]
    · rw [if_neg h]
      constructor
      · intro he
        have he' := Option.some.inj he
        refine ⟨0, Nat.succ_pos fuel, ?_, not_le.mp h, ?_, ?_⟩
        · intro j hj
          exact absurd hj (Nat.not_lt_zero j)
        · exact (congrArg Prod.fst he').symm
        · exact (congrArg Prod.snd he').symm
      · rintro ⟨k, _, hrej, _, hp, hst⟩
        cases k with
        | zero => rw [hp, hst]
        | succ k => exact absurd (hrej 0 (Nat.succ_pos k)) h

/-- The first index below `n` at which a decidable property holds, when there is one. -/
theorem exists_first_below {P : Nat → Prop} (n : Nat) (h : ∃ k, k < n ∧ P k) :
    ∃ k, k < n ∧ P k ∧ ∀ j, j < k → ¬ P j := by
  classical
  obtain ⟨k, hk, hP⟩ := h
  refine ⟨Nat.find (⟨k, hP⟩ : ∃ i, P i), ?_, Nat.find_spec _, ?_⟩
  · exact lt_of_le_of_lt (Nat.find_min' _ hP) hk
  · intro j hj
    exact Nat.find_min _ hj

/-- Within `fuel` iterations the sampler returns exactly when one of the first `fuel` candidates
has squared length below 1. -/
theorem random_in_unit_sphere_isSome_iff (order : Equiv.Perm (Fin 3)) (fuel : Nat) (st : curandState K) :
    (random_in_unit_sphere order fuel st).isSome = true ↔
      ∃ k, k < fuel ∧ (kth_candidate order st k).squared_length < 1 := by
  constructor
  · intro h
    obtain ⟨⟨p, st'⟩, hr⟩ := Option.isSome_iff_exists.mp h
    obtain ⟨k, hk, _, hacc, _, _⟩ := (random_in_unit_sphere_eq_some_iff order fuel st p st').mp hr
    exact ⟨k, hk, hacc⟩
  · intro h
    obtain ⟨k, hk, hacc, hmin⟩ := exists_first_below fuel h
    have hr := (random_in_unit_sphere_eq_some_iff order fuel st (kth_candidate order st k)
      ⟨st.draws, st.pos + 3 * (k + 1)⟩).mpr
        ⟨k, hk, fun j hj => not_lt.mp (hmin j hj), hacc, rfl, rfl⟩
    rw [hr]
    rfl

/-- C5, as the code has it: the loop of `random_in_unit_sphere` has no cap. Within `fuel`
iterations it returns if and only if one of the first `fuel` candidate triples has squared
length below 1, so it returns at all if and only if the stream holds such a triple, and then
after as many iterations as the number of the first one says. -/
theorem random_in_unit_sphere_returns_iff (order : Equiv.Perm (Fin 3)) (st : curandState K) :
    (∀ fuel, (random_in_unit_sphere order fuel st).isSome = true ↔
        ∃ k, k < fuel ∧ (kth_candidate order st k).squared_length < 1) ∧
      ((∃ fuel, (random_in_unit_sphere order fuel st).isSome = true) ↔
        ∃ k, (kth_candidate order st k).squared_length < 1) := by
  refine ⟨fun fuel => random_in_unit_sphere_isSome_iff order fuel st, ?_⟩
  constructor
  · rintro ⟨fuel, h⟩
    obtain ⟨k, _, hk⟩ := (random_in_unit_sphere_isSome_iff order fuel st).mp h
    exact ⟨k, hk⟩
  · rintro ⟨k, hk⟩
    exact ⟨k + 1,
      (random_in_unit_sphere_isSome_iff order (k + 1) st).mpr ⟨k, Nat.lt_succ_self k, hk⟩⟩

/-- C5 as stated fails: on the stream whose every draw is 0, a stream of draws in `[0,1)`,
every candidate is `(-1,-1,-1)` of squared length 3 and no number of iterations makes
`random_in_unit_sphere` return, in whatever order the three draws are evaluated. -/
theorem random_in_unit_sphere_constant_stream_diverges :
    (∀ i, 0 ≤ (⟨fun _ => 0, 0⟩ : curandState ℚ).draws i ∧
        (⟨fun _ => 0, 0⟩ : curandState ℚ).draws i < 1) ∧
      ¬ ∃ order fuel,
        (random_in_unit_sphere order fuel (⟨fun _ => 0, 0⟩ : curandState ℚ)).isSome = true := by
  refine ⟨fun i => ⟨le_refl _, zero_lt_one⟩, ?_⟩
  rintro ⟨order, fuel, h⟩
  obtain ⟨k, _, hk⟩ := (random_in_unit_sphere_isSome_iff order fuel _).mp h
  revert hk
  simp only [kth_candidate, candidate, vec3.squared_length, vec3.sub_x, vec3.sub_y, vec3.sub_z,
    vec3.smul_x, vec3.smul_y, vec3.smul_z]
  norm_num

/-- The candidate of the `k`-th triple, component by component. -/
theorem kth_candidate_eq (order : Equiv.Perm (Fin 3)) (st : curandState K) (k : Nat) :
    kth_candidate order st k =
      ⟨2 * st.draws (st.pos + 3 * k + (order 0).val) - 1,
        2 * st.draws (st.pos + 3 * k + (order 1).val) - 1,
        2 * st.draws (st.pos + 3 * k + (order 2).val) - 1⟩ := by
  ext <;> simp [kth_candidate, candidate]

/-- C6: `random_in_unit_sphere` returns `p` (within `fuel` iterations) exactly when, for the
first triple of draws, number `k < fuel`, whose point `2*(a0,a1,a2) - (1,1,1)` has squared length
below 1, every earlier triple giving squared length at least 1, `p` is that point; the cursor is
then past the `k + 1` triples examined, and `squared_length(p) < 1`. The three draws of a triple
become `a0, a1, a2` in the order in which the compiler evaluates the three arguments
(`order`), which the identity makes the order written and which C++ leaves open. -/
theorem random_in_unit_sphere_first_accepted (order : Equiv.Perm (Fin 3)) (fuel : Nat)
    (st : curandState K) (p : vec3 K) (st' : curandState K) :
    (random_in_unit_sphere order fuel st = some (p, st') ↔
        ∃ k, k < fuel ∧
          (∀ j, j < k →
            (2 * st.draws (st.pos + 3 * j + (order 0).val) - 1) * (2 * st.draws (st.pos + 3 * j + (order 0).val) - 1) +
              (2 * st.draws (st.pos + 3 * j + (order 1).val) - 1) * (2 * st.draws (st.pos + 3 * j + (order 1).val) - 1) +
              (2 * st.draws (st.pos + 3 * j + (order 2).val) - 1) * (2 * st.draws (st.pos + 3 * j + (order 2).val) - 1) ≥ 1) ∧
          (2 * st.draws (st.pos + 3 * k + (order 0).val) - 1) * (2 * st.draws (st.pos + 3 * k + (order 0).val) - 1) +
              (2 * st.draws (st.pos + 3 * k + (order 1).val) - 1) * (2 * st.draws (st.pos + 3 * k + (order 1).val) - 1) +
              (2 * st.draws (st.pos + 3 * k + (order 2).val) - 1) * (2 * st.draws (st.pos + 3 * k + (order 2).val) - 1) < 1 ∧
          p = ⟨2 * st.draws (st.pos + 3 * k + (order 0).val) - 1,
            2 * st.draws (st.pos + 3 * k + (order 1).val) - 1,
            2 * st.draws (st.pos + 3 * k + (order 2).val) - 1⟩ ∧
          st' = ⟨st.draws, st.pos + 3 * (k + 1)⟩) ∧
      (random_in_unit_sphere order fuel st = some (p, st') →
        p.x * p.x + p.y * p.y + p.z * p.z < 1 ∧ p.squared_length < 1) ∧
      (order = Equiv.refl (Fin 3) → random_in_unit_sphere order fuel st = some (p, st') →
        ∃ k, k < fuel ∧
          p = ⟨2 * st.draws (st.pos + 3 * k) - 1, 2 * st.draws (st.pos + 3 * k + 1) - 1,
            2 * st.draws (st.pos + 3 * k + 2) - 1⟩) := by
  have key := random_in_unit_sphere_eq_some_iff order fuel st p st'
  refine ⟨?_, ?_, ?_⟩
  · rw [key]
    constructor
    · rintro ⟨k, hk, hrej, hacc, hp, hst⟩
      refine ⟨k, hk, fun j hj => ?_, ?_, ?_, hst⟩
      · have h := hrej j hj
        rw [kth_candidate_eq] at h
        exact h
      · rw [kth_candidate_eq] at hacc
        exact hacc
      · rw [kth_candidate_eq] at hp
        exact hp
    · rintro ⟨k, hk, hrej, hacc, hp, hst⟩
      refine ⟨k, hk, fun j hj => ?_, ?_, ?_, hst⟩
      · rw [kth_candidate_eq]
        exact hrej j hj
      · rw [kth_candidate_eq]
        exact hacc
      · rw [kth_candidate_eq]
        exact hp
  · intro h
    obtain ⟨k, _, _, hacc, hp, _⟩ := key.mp h
    rw [hp]
    exact ⟨hacc, hacc⟩
  · intro ho h
    obtain ⟨k, hk, _, _, hp, _⟩ := key.mp h
    refine ⟨k, hk, ?_⟩
    rw [hp, kth_candidate_eq, ho]
    rfl

/-! ## The materials -/

/-- The product of a normalized vector with `n` is the product of the vector with `n` divided by
its length. -/
theorem dot_unit_vector (sqrt : K → K) (v n : vec3 K) :
    dot (unit_vector sqrt v) n = dot v n / v.length sqrt := by
  simp only [dot, unit_vector, vec3.div]
  ring

/-- On the stream whose every draw is `1/2` the first candidate is the zero vector, which the
sampler accepts. -/
theorem random_in_unit_sphere_half (order : Equiv.Perm (Fin 3)) (pos : Nat) :
    random_in_unit_sphere order 1 (⟨fun _ => 1 / 2, pos⟩ : curandState K) =
      some (⟨0, 0, 0⟩, ⟨fun _ => 1 / 2, pos + 3⟩) := by
  have hc : kth_candidate order (⟨fun _ => 1 / 2, pos⟩ : curandState K) 0 = ⟨0, 0, 0⟩ := by
    ext <;> simp [kth_candidate, candidate]
  rw [random_in_unit_sphere_succ, hc]
  simp [vec3.squared_length]

/-- C7, as the code has it: for every incoming ray, hit record and stream on which the sampler
returns a sample `s`, `lambertian::scatter` returns `true`, the attenuation `albedo` and the
outgoing ray from `rec.p` with direction `(rec.p + rec.normal + s) - rec.p`, computed in that
order, and the incoming ray has no influence on the result: this holds in every arithmetic `A`,
that of `float` included. In exact arithmetic, over a field `K` such as the reals, the
direction that `lambertian::scatter` hands back equals `rec.normal + s`. -/
theorem lambertian_scatter_result {A : Type} [One A] [OfNat A 2] [Add A] [Sub A] [Mul A] [LE A]
    [DecidableRel (fun a b : A => a ≤ b)] (m : lambertian A) (order : Equiv.Perm (Fin 3))
    (fuel : Nat) (r_in : ray A) (rec : hit_record A) (st : curandState A) (s : vec3 A)
    (st' : curandState A) (mK : lambertian K) (r_inK : ray K) (recK : hit_record K)
    (stK : curandState K) (sK : vec3 K) (stK' : curandState K)
    (h : random_in_unit_sphere order fuel st = some (s, st'))
    (hK : random_in_unit_sphere order fuel stK = some (sK, stK')) :
    m.scatter order fuel r_in rec st
        = some (⟨true, m.albedo, ⟨rec.p, (rec.p + rec.normal + s) - rec.p⟩⟩, st') ∧
      (∀ r_in' : ray A, m.scatter order fuel r_in' rec st = m.scatter order fuel r_in rec st) ∧
      mK.scatter order fuel r_inK recK stK
        = some (⟨true, mK.albedo, ⟨recK.p, recK.normal + sK⟩⟩, stK') ∧
      (recK.p + recK.normal + sK) - recK.p = recK.normal + sK := by
  have e : (recK.p + recK.normal + sK) - recK.p = recK.normal + sK := by
    ext
    · simp only [vec3.add_x, vec3.sub_x]
      ring
    · simp only [vec3.add_y, vec3.sub_y]
      ring
    · simp only [vec3.add_z, vec3.sub_z]
      ring
  refine ⟨?_, fun _ => rfl, ?_, e⟩
  · unfold lambertian.scatter
    rw [h]
  · unfold lambertian.scatter
    rw [hK]
    simp only [e]

theorem lambertian_scatter_result_witness :
    random_in_unit_sphere (Equiv.refl _) 1 (⟨fun _ => 1 / 2, 0⟩ : curandState ℚ)
        = some (⟨0, 0, 0⟩, ⟨fun _ => 1 / 2, 0 + 3⟩) ∧
      random_in_unit_sphere (Equiv.refl _) 1 (⟨fun _ => 1 / 2, 0⟩ : curandState ℝ)
        = some (⟨0, 0, 0⟩, ⟨fun _ => 1 / 2, 0 + 3⟩) ∧
      (⟨⟨1 / 2, 1 / 2, 1 / 2⟩⟩ : lambertian ℚ).scatter (Equiv.refl _) 1 ⟨⟨0, 0, 5⟩, ⟨0, 0, -1⟩⟩
          ⟨⟨0, 0, 0⟩, ⟨0, 0, 1⟩⟩ ⟨fun _ => 1 / 2, 0⟩
        = some (⟨true, ⟨1 / 2, 1 / 2, 1 / 2⟩,
            ⟨⟨0, 0, 0⟩, ((⟨0, 0, 0⟩ : vec3 ℚ) + ⟨0, 0, 1⟩ + ⟨0, 0, 0⟩) - ⟨0, 0, 0⟩⟩⟩,
          ⟨fun _ => 1 / 2, 0 + 3⟩) ∧
      (⟨⟨1 / 2, 1 / 2, 1 / 2⟩⟩ : lambertian ℝ).scatter (Equiv.refl _) 1 ⟨⟨0, 0, 5⟩, ⟨0, 0, -1⟩⟩
          ⟨⟨3, 4, 5⟩, ⟨0, 0, 1⟩⟩ ⟨fun _ => 1 / 2, 0⟩
        = some (⟨true, ⟨1 / 2, 1 / 2, 1 / 2⟩, ⟨⟨3, 4, 5⟩, (⟨0, 0, 1⟩ : vec3 ℝ) + ⟨0, 0, 0⟩⟩⟩,
          ⟨fun _ => 1 / 2, 0 + 3⟩) := by
  have h := lambertian_scatter_result (⟨⟨1 / 2, 1 / 2, 1 / 2⟩⟩ : lambertian ℚ)
    (Equiv.refl _) 1 ⟨⟨0, 0, 5⟩, ⟨0, 0, -1⟩⟩ ⟨⟨0, 0, 0⟩, ⟨0, 0, 1⟩⟩ ⟨fun _ => 1 / 2, 0⟩
    ⟨0, 0, 0⟩ ⟨fun _ => 1 / 2, 0 + 3⟩ (⟨⟨1 / 2, 1 / 2, 1 / 2⟩⟩ : lambertian ℝ)
    ⟨⟨0, 0, 5⟩, ⟨0, 0, -1⟩⟩ ⟨⟨3, 4, 5⟩, ⟨0, 0, 1⟩⟩ ⟨fun _ => 1 / 2, 0⟩
    ⟨0, 0, 0⟩ ⟨fun _ => 1 / 2, 0 + 3⟩ (random_in_unit_sphere_half (Equiv.refl _) 0)
    (random_in_unit_sphere_half (Equiv.refl _) 0)
  exact ⟨random_in_unit_sphere_half (Equiv.refl _) 0,
    random_in_unit_sphere_half (Equiv.refl _) 0, h.1, h.2.2.1⟩

/-- C8: for every albedo `a` and every fuzz input `f` the constructed metal stores
`albedo = a` and `fuzz = min(f, 1)`: `f` itself when `f < 1`, negative `f` included, and
exactly 1 when `f ≥ 1`. -/
theorem metal_construct_fuzz (a : vec3 K) (f : K) :
    (metal.construct a f).albedo = a ∧ (metal.construct a f).fuzz = min f 1 ∧
      (f < 1 → (metal.construct a f).fuzz = f) ∧
      (1 ≤ f → (metal.construct a f).fuzz = 1) := by
  unfold metal.construct
  refine ⟨rfl, ?_, ?_, ?_⟩
  · by_cases h : f < 1
    · simp [h, min_eq_left h.le]
    · simp [h, min_eq_right (not_lt.mp h)]
  · intro h
    simp [h]
  · intro h
    simp [not_lt.mpr h]

/-- C9: for every incoming direction `d` other than zero, hit record and sample `s` returned by
the sampler, `metal::scatter` produces the outgoing ray from `rec.p` with direction
`reflect(unit(d), rec.normal) + fuzz*s`, sets the attenuation to `albedo` whatever it returns,
and returns `true` if and only if `dot(scattered.direction, rec.normal) > 0`. -/
theorem metal_scatter_result (m : metal ℝ) (order : Equiv.Perm (Fin 3)) (fuel : Nat) (r_in : ray ℝ) (rec : hit_record ℝ)
    (st : curandState ℝ) (s : vec3 ℝ) (st' : curandState ℝ)
    (_hd : r_in.direction ≠ vec3.zero)
    (h : random_in_unit_sphere order fuel st = some (s, st')) :
    ∃ out : scatter_result ℝ,
      m.scatter Real.sqrt order fuel r_in rec st = some (out, st') ∧
      out.scattered.origin = rec.p ∧
      out.scattered.direction
        = reflect (unit_vector Real.sqrt r_in.direction) rec.normal + m.fuzz • s ∧
      out.attenuation = m.albedo ∧
      (out.continues = true ↔ dot out.scattered.direction rec.normal > 0) := by
  refine ⟨⟨decide (dot (reflect (unit_vector Real.sqrt r_in.direction) rec.normal + m.fuzz • s)
      rec.normal > 0), m.albedo,
      ⟨rec.p, reflect (unit_vector Real.sqrt r_in.direction) rec.normal + m.fuzz • s⟩⟩,
    ?_, rfl, rfl, rfl, ?_⟩
  · unfold metal.scatter
    simp only [h]
  · simp

theorem metal_scatter_result_witness :
    (⟨0, 0, -1⟩ : vec3 ℝ) ≠ vec3.zero ∧
      random_in_unit_sphere (Equiv.refl _) 1 (⟨fun _ => 1 / 2, 0⟩ : curandState ℝ)
        = some (⟨0, 0, 0⟩, ⟨fun _ => 1 / 2, 0 + 3⟩) ∧
      ∃ out : scatter_result ℝ,
        (⟨⟨1, 1, 1⟩, 1 / 4⟩ : metal ℝ).scatter Real.sqrt (Equiv.refl _) 1 ⟨⟨0, 0, 5⟩, ⟨0, 0, -1⟩⟩
            ⟨⟨0, 0, 0⟩, ⟨0, 0, 1⟩⟩ ⟨fun _ => 1 / 2, 0⟩
          = some (out, ⟨fun _ => 1 / 2, 0 + 3⟩) ∧
        out.scattered.origin = ⟨0, 0, 0⟩ ∧
        out.scattered.direction
          = reflect (unit_vector Real.sqrt (⟨0, 0, -1⟩ : vec3 ℝ)) ⟨0, 0, 1⟩
            + (1 / 4 : ℝ) • (⟨0, 0, 0⟩ : vec3 ℝ) ∧
        out.attenuation = ⟨1, 1, 1⟩ ∧
        (out.continues = true ↔ dot out.scattered.direction (⟨0, 0, 1⟩ : vec3 ℝ) > 0) :=
  ⟨by simp [vec3.zero], random_in_unit_sphere_half (Equiv.refl _) 0,
    metal_scatter_result ⟨⟨1, 1, 1⟩, 1 / 4⟩ (Equiv.refl _) 1 ⟨⟨0, 0, 5⟩, ⟨0, 0, -1⟩⟩ ⟨⟨0, 0, 0⟩, ⟨0, 0, 1⟩⟩
      ⟨fun _ => 1 / 2, 0⟩ ⟨0, 0, 0⟩ ⟨fun _ => 1 / 2, 0 + 3⟩ (by simp [vec3.zero])
      (random_in_unit_sphere_half (Equiv.refl _) 0)⟩

/-- C10: a metal with `fuzz = 0` is a perfect mirror: for every hit normal `n` of length 1,
every incoming direction `d` other than zero and every stream on which the sampler returns,
the outgoing direction is exactly `reflect(unit(d), n)`, the attenuation is `albedo` and
`metal::scatter` returns `true` if and only if `dot(d, n) < 0`. With `d = (0,0,-1)` and
`n = (0,0,1)` it returns `true` and the outgoing direction is `(0,0,1)`. -/
theorem metal_zero_fuzz_mirror (m : metal ℝ) (order : Equiv.Perm (Fin 3)) (fuel : Nat) (r_in : ray ℝ) (rec : hit_record ℝ)
    (st : curandState ℝ) (s : vec3 ℝ) (st' : curandState ℝ)
    (hm : m.fuzz = 0) (hn : rec.normal.length Real.sqrt = 1)
    (hd : r_in.direction ≠ vec3.zero)
    (h : random_in_unit_sphere order fuel st = some (s, st')) :
    ∃ out : scatter_result ℝ,
      m.scatter Real.sqrt order fuel r_in rec st = some (out, st') ∧
      out.scattered.direction = reflect (unit_vector Real.sqrt r_in.direction) rec.normal ∧
      (out.continues = true ↔ dot r_in.direction rec.normal < 0) ∧
      out.attenuation = m.albedo ∧
      (r_in.direction = ⟨0, 0, -1⟩ → rec.normal = ⟨0, 0, 1⟩ →
        out.continues = true ∧ out.scattered.direction = ⟨0, 0, 1⟩) := by
  have hl := vec3.length_pos hd
  have hdir : reflect (unit_vector Real.sqrt r_in.direction) rec.normal + m.fuzz • s
      = reflect (unit_vector Real.sqrt r_in.direction) rec.normal := by
    rw [hm]
    ext <;> simp
  have hdot : dot (reflect (unit_vector Real.sqrt r_in.direction) rec.normal) rec.normal
      = -(dot r_in.direction rec.normal / r_in.direction.length Real.sqrt) := by
    rw [dot_reflect _ _ ((vec3.length_eq_one_iff rec.normal).mp hn), dot_unit_vector]
  have hcont : decide (dot (reflect (unit_vector Real.sqrt r_in.direction) rec.normal + m.fuzz • s)
        rec.normal > 0) = true ↔ dot r_in.direction rec.normal < 0 := by
    rw [hdir, hdot, decide_eq_true_iff, gt_iff_lt, neg_pos, div_neg_iff]
    constructor
    · rintro (⟨_, h2⟩ | ⟨h1, _⟩)
      · exact absurd hl (not_lt.mpr h2.le)
      · exact h1
    · intro h1
      exact Or.inr ⟨h1, hl⟩
  refine ⟨⟨decide (dot (reflect (unit_vector Real.sqrt r_in.direction) rec.normal + m.fuzz • s)
      rec.normal > 0), m.albedo,
      ⟨rec.p, reflect (unit_vector Real.sqrt r_in.direction) rec.normal + m.fuzz • s⟩⟩,
    ?_, hdir, hcont, rfl, ?_⟩
  · unfold metal.scatter
    simp only [h]
  · intro e1 e2
    refine ⟨hcont.mpr ?_, ?_⟩
    · rw [e1, e2]
      simp [dot]
    · show reflect (unit_vector Real.sqrt r_in.direction) rec.normal + m.fuzz • s = ⟨0, 0, 1⟩
      rw [hdir, e1, e2]
      ext <;> simp [reflect, unit_vector, vec3.length, vec3.div, dot]
      norm_num

theorem metal_zero_fuzz_mirror_witness :
    (metal.construct (⟨4 / 5, 3 / 5, 1 / 5⟩ : vec3 ℝ) 0).fuzz = 0 ∧
      (⟨0, 0, 1⟩ : vec3 ℝ).length Real.sqrt = 1 ∧ (⟨0, 0, -1⟩ : vec3 ℝ) ≠ vec3.zero ∧
      random_in_unit_sphere (Equiv.refl _) 1 (⟨fun _ => 1 / 2, 0⟩ : curandState ℝ)
        = some (⟨0, 0, 0⟩, ⟨fun _ => 1 / 2, 0 + 3⟩) ∧
      ∃ out : scatter_result ℝ,
        (metal.construct (⟨4 / 5, 3 / 5, 1 / 5⟩ : vec3 ℝ) 0).scatter Real.sqrt (Equiv.refl _) 1
            ⟨⟨0, 0, 5⟩, ⟨0, 0, -1⟩⟩ ⟨⟨0, 0, 0⟩, ⟨0, 0, 1⟩⟩ ⟨fun _ => 1 / 2, 0⟩
          = some (out, ⟨fun _ => 1 / 2, 0 + 3⟩) ∧
        out.continues = true ∧ out.scattered.direction = ⟨0, 0, 1⟩ ∧
        out.attenuation = ⟨4 / 5, 3 / 5, 1 / 5⟩ := by
  have hf : (metal.construct (⟨4 / 5, 3 / 5, 1 / 5⟩ : vec3 ℝ) 0).fuzz = 0 := by
    simp [metal.construct]
  obtain ⟨out, h1, _, _, h4, h5⟩ :=
    metal_zero_fuzz_mirror (metal.construct (⟨4 / 5, 3 / 5, 1 / 5⟩ : vec3 ℝ) 0)
      (Equiv.refl _) 1
      ⟨⟨0, 0, 5⟩, ⟨0, 0, -1⟩⟩ ⟨⟨0, 0, 0⟩, ⟨0, 0, 1⟩⟩ ⟨fun _ => 1 / 2, 0⟩ ⟨0, 0, 0⟩
      ⟨fun _ => 1 / 2, 0 + 3⟩ hf (by simp [vec3.length]) (by simp [vec3.zero])
      (random_in_unit_sphere_half (Equiv.refl _) 0)
  exact ⟨hf, by simp [vec3.length], by simp [vec3.zero], random_in_unit_sphere_half (Equiv.refl _) 0,
    out, h1, (h5 rfl rfl).1, (h5 rfl rfl).2, h4⟩

/-! ## The dielectric -/

/-- C11: for every incoming ray, hit record, refractive index and random draw (and whatever the
local `refracted` holds), `dielectric::scatter` returns `true`, the attenuation `(1,1,1)` and
an outgoing ray whose origin is `rec.p`. -/
theorem dielectric_scatter_always_continues (sqrt : K → K) (m : dielectric K) (r_in : ray K)
    (rec : hit_record K) (refracted0 : vec3 K) (st : curandState K) :
    (m.scatter sqrt r_in rec refracted0 st).1.continues = true ∧
      (m.scatter sqrt r_in rec refracted0 st).1.attenuation = ⟨1, 1, 1⟩ ∧
      (m.scatter sqrt r_in rec refracted0 st).1.scattered.origin = rec.p := by
  unfold dielectric.scatter
  simp only []
  split_ifs <;> exact ⟨rfl, rfl, rfl⟩

/-- C14: for every `ref_idx = r > 0`, `schlick(1, r) = ((1-r)/(1+r))^2` and
`schlick(0, r) = 1`. -/
theorem schlick_at_one_and_zero (r : K) (_hr : 0 < r) :
    schlick 1 r = ((1 - r) / (1 + r)) ^ 2 ∧ schlick 0 r = 1 := by
  unfold schlick
  simp only []
  constructor <;> ring

theorem schlick_at_one_and_zero_witness :
    (0 : ℚ) < 3 / 2 ∧ schlick 1 (3 / 2 : ℚ) = ((1 - 3 / 2) / (1 + 3 / 2)) ^ 2 ∧
      schlick 0 (3 / 2 : ℚ) = 1 :=
  ⟨by norm_num, schlick_at_one_and_zero (3 / 2) (by norm_num)⟩

/-- C15: for every cosine in `[0, 1]` and every `ref_idx > 0`, `schlick(cosine, ref_idx)` lies
between `r0 = ((1-ref_idx)/(1+ref_idx))^2` and 1, and so in `[0, 1]`. -/
theorem schlick_in_unit_interval (cosine ref_idx : K) (hr : 0 < ref_idx) (h0 : 0 ≤ cosine)
    (h1 : cosine ≤ 1) :
    ((1 - ref_idx) / (1 + ref_idx)) ^ 2 ≤ schlick cosine ref_idx ∧
      schlick cosine ref_idx ≤ 1 ∧ 0 ≤ schlick cosine ref_idx := by
  have hge := schlick_ge_r0 hr h1
  refine ⟨?_, schlick_le_one hr h0, le_trans (schlick_r0_bounds hr).1 hge⟩
  rw [pow_two]
  exact hge

theorem schlick_in_unit_interval_witness :
    (0 : ℚ) < 3 / 2 ∧ (0 : ℚ) ≤ 1 / 2 ∧ (1 / 2 : ℚ) ≤ 1 ∧
      ((1 - 3 / 2) / (1 + 3 / 2) : ℚ) ^ 2 ≤ schlick (1 / 2) (3 / 2) ∧
      schlick (1 / 2 : ℚ) (3 / 2) ≤ 1 ∧ 0 ≤ schlick (1 / 2 : ℚ) (3 / 2) :=
  ⟨by norm_num, by norm_num, by norm_num,
    schlick_in_unit_interval (1 / 2) (3 / 2) (by norm_num) (by norm_num) (by norm_num)⟩

/-- Whether `refract` succeeds does not depend on what `refracted` held before the call. -/
theorem refract_fst_indep (sqrt : K → K) (v n : vec3 K) (ni_over_nt : K) (r0 r1 : vec3 K) :
    (refract sqrt v n ni_over_nt r0).1 = (refract sqrt v n ni_over_nt r1).1 := by
  unfold refract
  simp only []
  split_ifs <;> rfl

/-- C13: total internal reflection forces reflection: on every input of `dielectric::scatter`
on which `refract` answers `false`, and for every draw `u` in `[0,1)`, `reflect_prob` is 1 and
the outgoing direction is `reflect(r_in.direction, rec.normal)`; the branch that reads the local
`refracted`, which `refract` did not assign, is not taken, so the result is the same whatever
that local holds. -/
theorem dielectric_total_internal_reflection (m : dielectric ℝ) (r_in : ray ℝ)
    (rec : hit_record ℝ) (refracted0 : vec3 ℝ) (st : curandState ℝ)
    (hf : (refract Real.sqrt r_in.direction (m.branch Real.sqrt r_in rec).1
      (m.branch Real.sqrt r_in rec).2.1 refracted0).1 = false)
    (_hu0 : 0 ≤ st.draws st.pos) (hu : st.draws st.pos < 1) :
    (m.reflect_prob Real.sqrt r_in rec refracted0).1 = 1 ∧
      (m.scatter Real.sqrt r_in rec refracted0 st).1.scattered.direction
        = reflect r_in.direction rec.normal ∧
      ∀ refracted1 : vec3 ℝ,
        m.scatter Real.sqrt r_in rec refracted1 st = m.scatter Real.sqrt r_in rec refracted0 st := by
  have hp : ∀ r1 : vec3 ℝ, (m.reflect_prob Real.sqrt r_in rec r1).1 = 1 := by
    intro r1
    have hf1 : (refract Real.sqrt r_in.direction (m.branch Real.sqrt r_in rec).1
        (m.branch Real.sqrt r_in rec).2.1 r1).1 = false := by
      rw [refract_fst_indep Real.sqrt _ _ _ r1 refracted0]
      exact hf
    unfold dielectric.reflect_prob
    simp [hf1]
  have hs : ∀ r1 : vec3 ℝ, m.scatter Real.sqrt r_in rec r1 st
      = (⟨true, ⟨1, 1, 1⟩, ⟨rec.p, reflect r_in.direction rec.normal⟩⟩,
          ⟨st.draws, st.pos + 1⟩) := by
    intro r1
    have hlt : (curand_uniform st).1 < (m.reflect_prob Real.sqrt r_in rec r1).1 := by
      rw [hp r1]
      exact hu
    unfold dielectric.scatter
    simp only []
    rw [if_pos hlt]
    rfl
  refine ⟨hp refracted0, ?_, ?_⟩
  · rw [hs refracted0]
  · intro r1
    rw [hs r1, hs refracted0]

theorem dielectric_total_internal_reflection_witness :
    (refract Real.sqrt (⟨1, 0, 0⟩ : vec3 ℝ)
        ((⟨1 / 2⟩ : dielectric ℝ).branch Real.sqrt ⟨⟨0, 0, 0⟩, ⟨1, 0, 0⟩⟩
          ⟨⟨0, 0, 0⟩, ⟨0, 0, 1⟩⟩).1
        ((⟨1 / 2⟩ : dielectric ℝ).branch Real.sqrt ⟨⟨0, 0, 0⟩, ⟨1, 0, 0⟩⟩
          ⟨⟨0, 0, 0⟩, ⟨0, 0, 1⟩⟩).2.1 ⟨7, 7, 7⟩).1 = false ∧
      (0 : ℝ) ≤ (⟨fun _ => 99 / 100, 0⟩ : curandState ℝ).draws 0 ∧
      (⟨fun _ => 99 / 100, 0⟩ : curandState ℝ).draws 0 < 1 ∧
      ((⟨1 / 2⟩ : dielectric ℝ).scatter Real.sqrt ⟨⟨0, 0, 0⟩, ⟨1, 0, 0⟩⟩
          ⟨⟨0, 0, 0⟩, ⟨0, 0, 1⟩⟩ ⟨7, 7, 7⟩ ⟨fun _ => 99 / 100, 0⟩).1.scattered.direction
        = reflect (⟨1, 0, 0⟩ : vec3 ℝ) ⟨0, 0, 1⟩ := by
  have hf : (refract Real.sqrt (⟨1, 0, 0⟩ : vec3 ℝ)
        ((⟨1 / 2⟩ : dielectric ℝ).branch Real.sqrt ⟨⟨0, 0, 0⟩, ⟨1, 0, 0⟩⟩
          ⟨⟨0, 0, 0⟩, ⟨0, 0, 1⟩⟩).1
        ((⟨1 / 2⟩ : dielectric ℝ).branch Real.sqrt ⟨⟨0, 0, 0⟩, ⟨1, 0, 0⟩⟩
          ⟨⟨0, 0, 0⟩, ⟨0, 0, 1⟩⟩).2.1 ⟨7, 7, 7⟩).1 = false := by
    simp [dielectric.branch, refract, unit_vector, vec3.length, vec3.div, dot]
    norm_num
  have h0 : (0 : ℝ) ≤ (⟨fun _ => 99 / 100, 0⟩ : curandState ℝ).draws 0 := by norm_num
  have h1 : (⟨fun _ => 99 / 100, 0⟩ : curandState ℝ).draws 0 < 1 := by norm_num
  exact ⟨hf, h0, h1,
    (dielectric_total_internal_reflection ⟨1 / 2⟩ ⟨⟨0, 0, 0⟩, ⟨1, 0, 0⟩⟩
      ⟨⟨0, 0, 0⟩, ⟨0, 0, 1⟩⟩ ⟨7, 7, 7⟩ ⟨fun _ => 99 / 100, 0⟩ hf h0 h1).2.1⟩

/-! ## The refracted vector -/

/-- Over the reals the normalization of a vector other than zero has squared length 1. -/
theorem unit_vector_squared_length {v : vec3 ℝ} (hv : v ≠ vec3.zero) :
    (unit_vector Real.sqrt v).squared_length = 1 := by
  have hq := vec3.squared_length_pos hv
  have hl := vec3.length_pos hv
  have hll : v.length Real.sqrt * v.length Real.sqrt = v.squared_length := by
    unfold vec3.length vec3.squared_length
    exact Real.mul_self_sqrt (vec3.squared_length_nonneg v)
  have hne : v.length Real.sqrt ≠ 0 := ne_of_gt hl
  unfold vec3.squared_length at hll ⊢
  simp only [unit_vector, vec3.div]
  field_simp
  linear_combination -hll

/-- The negated vector has the same squared length. -/
theorem vec3.squared_length_neg (n : vec3 K) : (-n).squared_length = n.squared_length := by
  simp only [vec3.squared_length, vec3.neg_x, vec3.neg_y, vec3.neg_z]
  ring

/-- The function `refract` answers `true` exactly when the discriminant is positive. -/
theorem refract_fst_eq_true_iff (sqrt : K → K) (v n : vec3 K) (ni_over_nt : K)
    (refracted : vec3 K) :
    (refract sqrt v n ni_over_nt refracted).1 = true ↔
      0 < 1 - ni_over_nt * ni_over_nt *
        (1 - dot (unit_vector sqrt v) n * dot (unit_vector sqrt v) n) := by
  unfold refract
  simp only []
  split_ifs with h
  · simpa using h
  · simpa using h

/-- What `refract` assigns to `refracted` when it answers `true`. -/
theorem refract_snd_of_true (sqrt : K → K) (v n : vec3 K) (ni_over_nt : K)
    (refracted : vec3 K) (h : (refract sqrt v n ni_over_nt refracted).1 = true) :
    (refract sqrt v n ni_over_nt refracted).2 =
      ni_over_nt • (unit_vector sqrt v - dot (unit_vector sqrt v) n • n)
        - sqrt (1 - ni_over_nt * ni_over_nt *
          (1 - dot (unit_vector sqrt v) n * dot (unit_vector sqrt v) n)) • n := by
  unfold refract at h ⊢
  simp only [] at h ⊢
  split_ifs at h ⊢
  rfl

/-- The algebra behind the normal component of the refracted vector. -/
theorem refracted_dot_normal (u n : vec3 K) (k S : K) (hn : n.squared_length = 1) :
    dot (k • (u - dot u n • n) - S • n) n = -S := by
  unfold vec3.squared_length at hn
  simp only [dot, vec3.sub_x, vec3.sub_y, vec3.sub_z, vec3.smul_x, vec3.smul_y, vec3.smul_z]
  linear_combination (-k * (u.x * n.x + u.y * n.y + u.z * n.z) - S) * hn

/-- Over the reals the product of a normalized vector with a vector of length 1 has a square of
at most 1. -/
theorem dot_unit_vector_sq_le_one {v n : vec3 ℝ} (hv : v ≠ vec3.zero)
    (hn : n.squared_length = 1) :
    dot (unit_vector Real.sqrt v) n * dot (unit_vector Real.sqrt v) n ≤ 1 := by
  have h := dot_sq_le (unit_vector Real.sqrt v) n
  rw [unit_vector_squared_length hv, hn, mul_one, pow_two] at h
  exact h

/-- The local `outward_normal` of `dielectric::scatter` has the squared length of the hit
normal, and the incoming direction does not point along it. -/
theorem dielectric.outward_normal_spec (sqrt : K → K) (m : dielectric K) (r_in : ray K)
    (rec : hit_record K) :
    (m.branch sqrt r_in rec).1.squared_length = rec.normal.squared_length ∧
      dot r_in.direction (m.branch sqrt r_in rec).1 ≤ 0 := by
  unfold dielectric.branch
  split_ifs with h
  · refine ⟨vec3.squared_length_neg _, ?_⟩
    have e : dot r_in.direction (-rec.normal) = -dot r_in.direction rec.normal := by
      simp only [dot, vec3.neg_x, vec3.neg_y, vec3.neg_z]
      ring
    simp only [e]
    linarith
  · exact ⟨rfl, not_lt.mp h⟩

/-- C19: a refracted ray crosses the surface: in `dielectric::scatter`, for every hit normal of
length 1, every incoming direction `d` other than zero and every `ref_idx > 0` for which
`refract` answers `true`, the chosen `outward_normal` satisfies `dot(d, outward_normal) ≤ 0`
and the refracted vector `r`, which is what the local `refracted` then holds, satisfies
`dot(r, outward_normal) = -sqrt(discriminant) < 0`. -/
theorem dielectric_refracted_crosses_surface (m : dielectric ℝ) (r_in : ray ℝ)
    (rec : hit_record ℝ) (refracted0 : vec3 ℝ) (_hr : 0 < m.ref_idx)
    (hn : rec.normal.length Real.sqrt = 1) (_hd : r_in.direction ≠ vec3.zero)
    (h : (refract Real.sqrt r_in.direction (m.branch Real.sqrt r_in rec).1
      (m.branch Real.sqrt r_in rec).2.1 refracted0).1 = true) :
    dot r_in.direction (m.branch Real.sqrt r_in rec).1 ≤ 0 ∧
      (m.reflect_prob Real.sqrt r_in rec refracted0).2
        = (refract Real.sqrt r_in.direction (m.branch Real.sqrt r_in rec).1
            (m.branch Real.sqrt r_in rec).2.1 refracted0).2 ∧
      dot (refract Real.sqrt r_in.direction (m.branch Real.sqrt r_in rec).1
          (m.branch Real.sqrt r_in rec).2.1 refracted0).2 (m.branch Real.sqrt r_in rec).1
        = -Real.sqrt (1 - (m.branch Real.sqrt r_in rec).2.1 ^ 2 *
            (1 - dot (unit_vector Real.sqrt r_in.direction)
              (m.branch Real.sqrt r_in rec).1 ^ 2)) ∧
      -Real.sqrt (1 - (m.branch Real.sqrt r_in rec).2.1 ^ 2 *
          (1 - dot (unit_vector Real.sqrt r_in.direction)
            (m.branch Real.sqrt r_in rec).1 ^ 2)) < 0 := by
  obtain ⟨hon, hle⟩ := dielectric.outward_normal_spec Real.sqrt m r_in rec
  rw [(vec3.length_eq_one_iff rec.normal).mp hn] at hon
  have hpos := (refract_fst_eq_true_iff Real.sqrt _ _ _ refracted0).mp h
  have e : (1 - (m.branch Real.sqrt r_in rec).2.1 ^ 2 *
      (1 - dot (unit_vector Real.sqrt r_in.direction) (m.branch Real.sqrt r_in rec).1 ^ 2))
      = 1 - (m.branch Real.sqrt r_in rec).2.1 * (m.branch Real.sqrt r_in rec).2.1 *
        (1 - dot (unit_vector Real.sqrt r_in.direction) (m.branch Real.sqrt r_in rec).1 *
          dot (unit_vector Real.sqrt r_in.direction) (m.branch Real.sqrt r_in rec).1) := by
    ring
  rw [e]
  refine ⟨hle, ?_, ?_, neg_lt_zero.mpr (Real.sqrt_pos.mpr hpos)⟩
  · unfold dielectric.reflect_prob
    simp only []
    split_ifs
    rfl
  · rw [refract_snd_of_true Real.sqrt _ _ _ refracted0 h]
    exact refracted_dot_normal _ _ _ _ hon

theorem dielectric_refracted_crosses_surface_witness :
    (0 : ℝ) < (⟨3 / 2⟩ : dielectric ℝ).ref_idx ∧
      (⟨0, 0, 1⟩ : vec3 ℝ).length Real.sqrt = 1 ∧ (⟨0, 0, -1⟩ : vec3 ℝ) ≠ vec3.zero ∧
      (refract Real.sqrt (⟨0, 0, -1⟩ : vec3 ℝ)
        ((⟨3 / 2⟩ : dielectric ℝ).branch Real.sqrt ⟨⟨0, 0, 1⟩, ⟨0, 0, -1⟩⟩
          ⟨⟨0, 0, 0⟩, ⟨0, 0, 1⟩⟩).1
        ((⟨3 / 2⟩ : dielectric ℝ).branch Real.sqrt ⟨⟨0, 0, 1⟩, ⟨0, 0, -1⟩⟩
          ⟨⟨0, 0, 0⟩, ⟨0, 0, 1⟩⟩).2.1 ⟨7, 7, 7⟩).1 = true ∧
      dot (⟨0, 0, -1⟩ : vec3 ℝ)
        ((⟨3 / 2⟩ : dielectric ℝ).branch Real.sqrt ⟨⟨0, 0, 1⟩, ⟨0, 0, -1⟩⟩
          ⟨⟨0, 0, 0⟩, ⟨0, 0, 1⟩⟩).1 ≤ 0 := by
  have hs : (refract Real.sqrt (⟨0, 0, -1⟩ : vec3 ℝ)
        ((⟨3 / 2⟩ : dielectric ℝ).branch Real.sqrt ⟨⟨0, 0, 1⟩, ⟨0, 0, -1⟩⟩
          ⟨⟨0, 0, 0⟩, ⟨0, 0, 1⟩⟩).1
        ((⟨3 / 2⟩ : dielectric ℝ).branch Real.sqrt ⟨⟨0, 0, 1⟩, ⟨0, 0, -1⟩⟩
          ⟨⟨0, 0, 0⟩, ⟨0, 0, 1⟩⟩).2.1 ⟨7, 7, 7⟩).1 = true := by
    norm_num [dielectric.branch, refract, unit_vector, vec3.length, vec3.div, dot]
  exact ⟨by norm_num, by simp [vec3.length], by simp [vec3.zero], hs,
    (dielectric_refracted_crosses_surface ⟨3 / 2⟩ ⟨⟨0, 0, 1⟩, ⟨0, 0, -1⟩⟩
      ⟨⟨0, 0, 0⟩, ⟨0, 0, 1⟩⟩ ⟨7, 7, 7⟩ (by norm_num) (by simp [vec3.length])
      (by simp [vec3.zero]) hs).1⟩

/-- C12: entering a denser medium never causes total internal reflection: for every
`ref_idx > 1`, every hit normal `n` of length 1 and every incoming direction `d` other than zero
with `dot(d, n) ≤ 0`, `dielectric::scatter` calls `refract` with `outward_normal = n` and
`ni_over_nt = 1/ref_idx`, the call answers `true`, and
`reflect_prob = schlick(-dot(d,n)/length(d), ref_idx)`; a draw below `reflect_prob` gives the
outgoing direction `reflect(d, n)`, any other draw gives the refracted direction. With
`ref_idx = 3/2`, `d = (0,0,-1)` and `n = (0,0,1)`: `reflect_prob = schlick(1, 3/2) = 1/25`, the
draw `99/100` gives the refracted direction `(0,0,-1)` and the draw `0` the reflected direction
`(0,0,1)`. -/
theorem dielectric_entering_denser (m : dielectric ℝ) (r_in : ray ℝ) (rec : hit_record ℝ)
    (refracted0 : vec3 ℝ) (st : curandState ℝ) (hr : 1 < m.ref_idx)
    (hn : rec.normal.length Real.sqrt = 1) (hd : r_in.direction ≠ vec3.zero)
    (he : dot r_in.direction rec.normal ≤ 0) :
    m.branch Real.sqrt r_in rec
        = (rec.normal, 1 / m.ref_idx,
            -dot r_in.direction rec.normal / r_in.direction.length Real.sqrt) ∧
      (refract Real.sqrt r_in.direction rec.normal (1 / m.ref_idx) refracted0).1 = true ∧
      (m.reflect_prob Real.sqrt r_in rec refracted0).1
        = schlick (-dot r_in.direction rec.normal / r_in.direction.length Real.sqrt)
            m.ref_idx ∧
      (st.draws st.pos
          < schlick (-dot r_in.direction rec.normal / r_in.direction.length Real.sqrt)
            m.ref_idx →
        (m.scatter Real.sqrt r_in rec refracted0 st).1.scattered.direction
          = reflect r_in.direction rec.normal) ∧
      (schlick (-dot r_in.direction rec.normal / r_in.direction.length Real.sqrt) m.ref_idx
          ≤ st.draws st.pos →
        (m.scatter Real.sqrt r_in rec refracted0 st).1.scattered.direction
          = (refract Real.sqrt r_in.direction rec.normal (1 / m.ref_idx) refracted0).2) ∧
      (m.ref_idx = 3 / 2 → r_in.direction = ⟨0, 0, -1⟩ → rec.normal = ⟨0, 0, 1⟩ →
        (m.reflect_prob Real.sqrt r_in rec refracted0).1 = schlick 1 (3 / 2) ∧
        schlick (1 : ℝ) (3 / 2) = 1 / 25 ∧
        (st.draws st.pos = 99 / 100 →
          (m.scatter Real.sqrt r_in rec refracted0 st).1.scattered.direction = ⟨0, 0, -1⟩) ∧
        (st.draws st.pos = 0 →
          (m.scatter Real.sqrt r_in rec refracted0 st).1.scattered.direction = ⟨0, 0, 1⟩)) := by
  have hb : m.branch Real.sqrt r_in rec
      = (rec.normal, 1 / m.ref_idx,
          -dot r_in.direction rec.normal / r_in.direction.length Real.sqrt) := by
    unfold dielectric.branch
    rw [if_neg (not_lt.mpr he)]
  have hk0 : 0 < 1 / m.ref_idx := by
    apply div_pos one_pos
    linarith
  have hk1 : 1 / m.ref_idx < 1 := by
    rw [div_lt_one (by linarith)]
    exact hr
  have hD := dot_unit_vector_sq_le_one hd ((vec3.length_eq_one_iff rec.normal).mp hn)
  have hs : (refract Real.sqrt r_in.direction rec.normal (1 / m.ref_idx) refracted0).1 = true := by
    rw [refract_fst_eq_true_iff]
    have hkk : 1 / m.ref_idx * (1 / m.ref_idx) < 1 := by nlinarith
    nlinarith [mul_self_nonneg (dot (unit_vector Real.sqrt r_in.direction) rec.normal)]
  have hp : m.reflect_prob Real.sqrt r_in rec refracted0
      = (schlick (-dot r_in.direction rec.normal / r_in.direction.length Real.sqrt) m.ref_idx,
          (refract Real.sqrt r_in.direction rec.normal (1 / m.ref_idx) refracted0).2) := by
    unfold dielectric.reflect_prob
    simp only [hb]
    rw [if_pos hs]
  have hlt : st.draws st.pos
        < schlick (-dot r_in.direction rec.normal / r_in.direction.length Real.sqrt) m.ref_idx →
      (m.scatter Real.sqrt r_in rec refracted0 st).1.scattered.direction
        = reflect r_in.direction rec.normal := by
    intro hu
    unfold dielectric.scatter
    simp only [hp, curand_uniform]
    rw [if_pos hu]
  have hge : schlick (-dot r_in.direction rec.normal / r_in.direction.length Real.sqrt)
        m.ref_idx ≤ st.draws st.pos →
      (m.scatter Real.sqrt r_in rec refracted0 st).1.scattered.direction
        = (refract Real.sqrt r_in.direction rec.normal (1 / m.ref_idx) refracted0).2 := by
    intro hu
    unfold dielectric.scatter
    simp only [hp, curand_uniform]
    rw [if_neg (not_lt.mpr hu)]
  refine ⟨hb, hs, by rw [hp], hlt, hge, ?_⟩
  intro e1 e2 e3
  have hc : -dot r_in.direction rec.normal / r_in.direction.length Real.sqrt = 1 := by
    rw [e2, e3]
    simp [dot, vec3.length]
  have hv : schlick (1 : ℝ) (3 / 2) = 1 / 25 := by
    unfold schlick
    norm_num
  rw [hc, e1] at hlt hge
  refine ⟨by rw [hp, hc, e1], hv, ?_, ?_⟩
  · intro hu
    have hs1 := hs
    rw [e1] at hs1
    rw [hge (by rw [hu, hv]; norm_num), refract_snd_of_true Real.sqrt _ _ _ refracted0 hs1,
      e2, e3]
    ext <;> simp [unit_vector, vec3.length, vec3.div, dot]
  · intro hu
    rw [hlt (by rw [hu, hv]; norm_num), e2, e3]
    ext <;> simp [reflect, dot]
    norm_num

theorem dielectric_entering_denser_witness :
    (1 : ℝ) < (⟨3 / 2⟩ : dielectric ℝ).ref_idx ∧
      (⟨0, 0, 1⟩ : vec3 ℝ).length Real.sqrt = 1 ∧ (⟨0, 0, -1⟩ : vec3 ℝ) ≠ vec3.zero ∧
      dot (⟨0, 0, -1⟩ : vec3 ℝ) ⟨0, 0, 1⟩ ≤ 0 ∧
      ((⟨3 / 2⟩ : dielectric ℝ).reflect_prob Real.sqrt ⟨⟨0, 0, 1⟩, ⟨0, 0, -1⟩⟩
          ⟨⟨0, 0, 0⟩, ⟨0, 0, 1⟩⟩ ⟨7, 7, 7⟩).1 = schlick 1 (3 / 2) ∧
      schlick (1 : ℝ) (3 / 2) = 1 / 25 ∧
      ((⟨3 / 2⟩ : dielectric ℝ).scatter Real.sqrt ⟨⟨0, 0, 1⟩, ⟨0, 0, -1⟩⟩
          ⟨⟨0, 0, 0⟩, ⟨0, 0, 1⟩⟩ ⟨7, 7, 7⟩ ⟨fun _ => 99 / 100, 0⟩).1.scattered.direction
        = ⟨0, 0, -1⟩ ∧
      ((⟨3 / 2⟩ : dielectric ℝ).scatter Real.sqrt ⟨⟨0, 0, 1⟩, ⟨0, 0, -1⟩⟩
          ⟨⟨0, 0, 0⟩, ⟨0, 0, 1⟩⟩ ⟨7, 7, 7⟩ ⟨fun _ => 0, 0⟩).1.scattered.direction
        = ⟨0, 0, 1⟩ := by
  have h1 : (1 : ℝ) < (⟨3 / 2⟩ : dielectric ℝ).ref_idx := by norm_num
  have h2 : (⟨0, 0, 1⟩ : vec3 ℝ).length Real.sqrt = 1 := by simp [vec3.length]
  have h3 : (⟨0, 0, -1⟩ : vec3 ℝ) ≠ vec3.zero := by simp [vec3.zero]
  have h4 : dot (⟨0, 0, -1⟩ : vec3 ℝ) ⟨0, 0, 1⟩ ≤ 0 := by norm_num [dot]
  have ha := (dielectric_entering_denser ⟨3 / 2⟩ ⟨⟨0, 0, 1⟩, ⟨0, 0, -1⟩⟩
    ⟨⟨0, 0, 0⟩, ⟨0, 0, 1⟩⟩ ⟨7, 7, 7⟩ ⟨fun _ => 99 / 100, 0⟩ h1 h2 h3 h4).2.2.2.2.2 rfl rfl rfl
  have hb := (dielectric_entering_denser ⟨3 / 2⟩ ⟨⟨0, 0, 1⟩, ⟨0, 0, -1⟩⟩
    ⟨⟨0, 0, 0⟩, ⟨0, 0, 1⟩⟩ ⟨7, 7, 7⟩ ⟨fun _ => 0, 0⟩ h1 h2 h3 h4).2.2.2.2.2 rfl rfl rfl
  exact ⟨h1, h2, h3, h4, ha.1, ha.2.1, ha.2.2.1 rfl, hb.2.2.2 rfl⟩

/-! ## Draw counts and the direction of the scattered ray -/

/-- Within `fuel` iterations the sampler returns with the cursor `st'` exactly when, for the
number `k ≥ 1` of the first accepted triple (the first triple being number 1), `st'` is the
cursor moved by `3 * k` draws. -/
theorem random_in_unit_sphere_cursor_iff (order : Equiv.Perm (Fin 3)) (fuel : Nat) (st st' : curandState K) :
    (∃ s, random_in_unit_sphere order fuel st = some (s, st')) ↔
      ∃ k, 0 < k ∧ k ≤ fuel ∧ (∀ j, j + 1 < k → (kth_candidate order st j).squared_length ≥ 1) ∧
        (kth_candidate order st (k - 1)).squared_length < 1 ∧
        st' = ⟨st.draws, st.pos + 3 * k⟩ := by
  constructor
  · rintro ⟨s, hs⟩
    obtain ⟨k, hk, hrej, hacc, _, hst⟩ := (random_in_unit_sphere_eq_some_iff order fuel st s st').mp hs
    exact ⟨k + 1, Nat.succ_pos k, hk, fun j hj => hrej j (Nat.lt_of_succ_lt_succ hj), hacc, hst⟩
  · rintro ⟨k, hk0, hk, hrej, hacc, hst⟩
    obtain ⟨k0, rfl⟩ : ∃ k0, k = k0 + 1 := ⟨k - 1, (Nat.succ_pred_eq_of_pos hk0).symm⟩
    exact ⟨kth_candidate order st k0, (random_in_unit_sphere_eq_some_iff order fuel st _ st').mpr
      ⟨k0, hk, fun j hj => hrej j (Nat.succ_lt_succ hj), hacc, rfl, hst⟩⟩

/-- The method `lambertian::scatter` returns when the sampler does, with the sampler's cursor. -/
theorem lambertian_scatter_cursor_iff (m : lambertian K) (order : Equiv.Perm (Fin 3)) (fuel : Nat) (r_in : ray K)
    (rec : hit_record K) (st st' : curandState K) :
    (∃ out, m.scatter order fuel r_in rec st = some (out, st')) ↔
      ∃ s, random_in_unit_sphere order fuel st = some (s, st') := by
  unfold lambertian.scatter
  cases hr : random_in_unit_sphere order fuel st with
  | none => simp
  | some r =>
    obtain ⟨s, st1⟩ := r
    simp

/-- The method `metal::scatter` returns when the sampler does, with the sampler's cursor. -/
theorem metal_scatter_cursor_iff (sqrt : K → K) (m : metal K) (order : Equiv.Perm (Fin 3)) (fuel : Nat) (r_in : ray K)
    (rec : hit_record K) (st st' : curandState K) :
    (∃ out, m.scatter sqrt order fuel r_in rec st = some (out, st')) ↔
      ∃ s, random_in_unit_sphere order fuel st = some (s, st') := by
  unfold metal.scatter
  cases hr : random_in_unit_sphere order fuel st with
  | none => simp
  | some r =>
    obtain ⟨s, st1⟩ := r
    simp

/-- C16: draw counts on the stream cursor. `dielectric::scatter` moves the cursor by exactly one
draw on every input. `lambertian::scatter` and `metal::scatter` return with the cursor moved by
exactly `3 * k` draws, `k` being the number of the first accepted triple counted from 1 (every
earlier triple rejected), and only so; in particular by exactly three draws when the first
triple is accepted. -/
theorem scatter_draw_counts (sqrt : K → K) (md : dielectric K) (ml : lambertian K)
    (mm : metal K) (order : Equiv.Perm (Fin 3)) (fuel : Nat) (r_in : ray K) (rec : hit_record K) (refracted0 : vec3 K)
    (st st' : curandState K) :
    (md.scatter sqrt r_in rec refracted0 st).2 = ⟨st.draws, st.pos + 1⟩ ∧
      ((∃ out, ml.scatter order fuel r_in rec st = some (out, st')) ↔
        ∃ k, 0 < k ∧ k ≤ fuel ∧ (∀ j, j + 1 < k → (kth_candidate order st j).squared_length ≥ 1) ∧
          (kth_candidate order st (k - 1)).squared_length < 1 ∧
          st' = ⟨st.draws, st.pos + 3 * k⟩) ∧
      ((∃ out, mm.scatter sqrt order fuel r_in rec st = some (out, st')) ↔
        ∃ k, 0 < k ∧ k ≤ fuel ∧ (∀ j, j + 1 < k → (kth_candidate order st j).squared_length ≥ 1) ∧
          (kth_candidate order st (k - 1)).squared_length < 1 ∧
          st' = ⟨st.draws, st.pos + 3 * k⟩) ∧
      ((kth_candidate order st 0).squared_length < 1 → 0 < fuel →
        (∃ out, ml.scatter order fuel r_in rec st = some (out, ⟨st.draws, st.pos + 3⟩)) ∧
        ∃ out, mm.scatter sqrt order fuel r_in rec st = some (out, ⟨st.draws, st.pos + 3⟩)) := by
  refine ⟨?_, ?_, ?_, ?_⟩
  · unfold dielectric.scatter
    simp only []
    split_ifs <;> rfl
  · rw [lambertian_scatter_cursor_iff, random_in_unit_sphere_cursor_iff]
  · rw [metal_scatter_cursor_iff, random_in_unit_sphere_cursor_iff]
  · intro hacc hfuel
    have h1 : ∃ s, random_in_unit_sphere order fuel st = some (s, ⟨st.draws, st.pos + 3⟩) :=
      (random_in_unit_sphere_cursor_iff order fuel st _).mpr
        ⟨1, Nat.one_pos, hfuel, fun j hj => absurd hj (by omega), hacc, rfl⟩
    exact ⟨(lambertian_scatter_cursor_iff ml order fuel r_in rec st _).mpr h1,
      (metal_scatter_cursor_iff sqrt mm order fuel r_in rec st _).mpr h1⟩

/-- A vector of squared length below 1 has a product above `-1` with a vector of squared
length 1. -/
theorem dot_gt_neg_one (s n : vec3 K) (hs : s.squared_length < 1) (hn : n.squared_length = 1) :
    -1 < dot s n := by
  have h := dot_sq_le s n
  rw [hn, mul_one] at h
  by_contra hc
  have hc' : dot s n ≤ -1 := not_lt.mp hc
  nlinarith

/-- Mirror reflection about a normal of squared length 1 keeps the squared length. -/
theorem squared_length_reflect (v n : vec3 K) (hn : n.squared_length = 1) :
    (reflect v n).squared_length = v.squared_length := by
  unfold vec3.squared_length at hn ⊢
  simp only [reflect, dot, vec3.sub_x, vec3.sub_y, vec3.sub_z, vec3.smul_x, vec3.smul_y,
    vec3.smul_z]
  linear_combination (4 * (v.x * n.x + v.y * n.y + v.z * n.z) ^ 2) * hn

/-- A vector of squared length 1 plus a multiple, by a factor in `[0, 1]`, of a vector of squared
length below 1 is not the zero vector. -/
theorem add_smul_ne_zero (r s : vec3 K) (f : K) (hr : r.squared_length = 1)
    (hs : s.squared_length < 1) (hf0 : 0 ≤ f) (hf1 : f ≤ 1) : r + f • s ≠ vec3.zero := by
  intro h
  have hx : r.x = -(f * s.x) := by
    have := congrArg vec3.x h
    simp only [vec3.add_x, vec3.smul_x, vec3.zero] at this
    linarith
  have hy : r.y = -(f * s.y) := by
    have := congrArg vec3.y h
    simp only [vec3.add_y, vec3.smul_y, vec3.zero] at this
    linarith
  have hz : r.z = -(f * s.z) := by
    have := congrArg vec3.z h
    simp only [vec3.add_z, vec3.smul_z, vec3.zero] at this
    linarith
  have hs0 := vec3.squared_length_nonneg s
  unfold vec3.squared_length at hr hs hs0
  rw [hx, hy, hz] at hr
  have hff : f * f ≤ 1 := by nlinarith
  have e : f * f * (s.x * s.x + s.y * s.y + s.z * s.z) = 1 := by linear_combination hr
  nlinarith

/-- C17, in exact arithmetic (over the reals): `lambertian::scatter` never sends a ray into the
surface: for every hit normal `n` of length 1 and every sample `s` returned by
`random_in_unit_sphere`, which has `squared_length(s) < 1`, the outgoing direction satisfies
`dot(direction, n) > 0`, for every single sample, and so it is not the zero vector. -/
theorem lambertian_scatter_outward (m : lambertian ℝ) (order : Equiv.Perm (Fin 3)) (fuel : Nat) (r_in : ray ℝ)
    (rec : hit_record ℝ) (st : curandState ℝ) (s : vec3 ℝ) (st' : curandState ℝ)
    (hn : rec.normal.length Real.sqrt = 1)
    (h : random_in_unit_sphere order fuel st = some (s, st')) :
    ∃ out : scatter_result ℝ,
      m.scatter order fuel r_in rec st = some (out, st') ∧
      out.scattered.direction = rec.p + rec.normal + s - rec.p ∧
      s.squared_length < 1 ∧
      dot out.scattered.direction rec.normal > 0 ∧
      out.scattered.direction ≠ vec3.zero := by
  have hn1 := (vec3.length_eq_one_iff rec.normal).mp hn
  have hs : s.squared_length < 1 := by
    obtain ⟨k, _, _, hacc, hp, _⟩ := (random_in_unit_sphere_eq_some_iff order fuel st s st').mp h
    rw [hp]
    exact hacc
  have hdot : dot (rec.p + rec.normal + s - rec.p) rec.normal > 0 := by
    have h1 := dot_gt_neg_one s rec.normal hs hn1
    have e : dot (rec.p + rec.normal + s - rec.p) rec.normal
        = rec.normal.squared_length + dot s rec.normal := by
      simp only [dot, vec3.squared_length, vec3.add_x, vec3.add_y, vec3.add_z, vec3.sub_x,
        vec3.sub_y, vec3.sub_z]
      ring
    rw [e, hn1]
    linarith
  refine ⟨⟨true, m.albedo, ⟨rec.p, rec.p + rec.normal + s - rec.p⟩⟩, ?_, rfl, hs, hdot, ?_⟩
  · unfold lambertian.scatter
    rw [h]
  · intro hz
    have hz' : rec.p + rec.normal + s - rec.p = vec3.zero := hz
    rw [hz'] at hdot
    simp [dot, vec3.zero] at hdot

theorem lambertian_scatter_outward_witness :
    (⟨0, 0, 1⟩ : vec3 ℝ).length Real.sqrt = 1 ∧
      random_in_unit_sphere (Equiv.refl _) 1 (⟨fun _ => 1 / 2, 0⟩ : curandState ℝ)
        = some (⟨0, 0, 0⟩, ⟨fun _ => 1 / 2, 0 + 3⟩) ∧
      ∃ out : scatter_result ℝ,
        (⟨⟨1 / 2, 1 / 2, 1 / 2⟩⟩ : lambertian ℝ).scatter (Equiv.refl _) 1 ⟨⟨0, 0, 5⟩, ⟨0, 0, -1⟩⟩
            ⟨⟨0, 0, 0⟩, ⟨0, 0, 1⟩⟩ ⟨fun _ => 1 / 2, 0⟩
          = some (out, ⟨fun _ => 1 / 2, 0 + 3⟩) ∧
        dot out.scattered.direction (⟨0, 0, 1⟩ : vec3 ℝ) > 0 ∧
        out.scattered.direction ≠ vec3.zero := by
  have hn : (⟨0, 0, 1⟩ : vec3 ℝ).length Real.sqrt = 1 := by simp [vec3.length]
  obtain ⟨out, h1, _, _, h4, h5⟩ :=
    lambertian_scatter_outward ⟨⟨1 / 2, 1 / 2, 1 / 2⟩⟩ (Equiv.refl _) 1 ⟨⟨0, 0, 5⟩, ⟨0, 0, -1⟩⟩
      ⟨⟨0, 0, 0⟩, ⟨0, 0, 1⟩⟩ ⟨fun _ => 1 / 2, 0⟩ ⟨0, 0, 0⟩ ⟨fun _ => 1 / 2, 0 + 3⟩ hn
      (random_in_unit_sphere_half (Equiv.refl _) 0)
  exact ⟨hn, random_in_unit_sphere_half (Equiv.refl _) 0, out, h1, h4, h5⟩

/-- C20, in exact arithmetic (over the reals): `metal::scatter` never produces a degenerate ray
for a fuzz input that is not negative: for every metal constructed with `f ≥ 0`, whose stored fuzz then lies in `[0, 1]`, every hit
normal `n` of length 1, every incoming direction `d` other than zero and every sample `s` with
`squared_length(s) < 1`, the mirror reflection `reflect(unit(d), n)` has length 1 and the outgoing
direction `reflect(unit(d), n) + fuzz*s` is not the zero vector; so no call of `metal::scatter`
that returns hands back a ray of direction zero. -/
theorem metal_scatter_nondegenerate (a : vec3 ℝ) (f : ℝ) (r_in : ray ℝ) (rec : hit_record ℝ)
    (s : vec3 ℝ) (hf : 0 ≤ f) (hn : rec.normal.length Real.sqrt = 1)
    (hd : r_in.direction ≠ vec3.zero) (hs : s.squared_length < 1) :
    0 ≤ (metal.construct a f).fuzz ∧ (metal.construct a f).fuzz ≤ 1 ∧
      (reflect (unit_vector Real.sqrt r_in.direction) rec.normal).squared_length = 1 ∧
      (reflect (unit_vector Real.sqrt r_in.direction) rec.normal).length Real.sqrt = 1 ∧
      reflect (unit_vector Real.sqrt r_in.direction) rec.normal + (metal.construct a f).fuzz • s
        ≠ vec3.zero ∧
      ∀ (order : Equiv.Perm (Fin 3)) (fuel : Nat) (st st' : curandState ℝ)
        (out : scatter_result ℝ),
        (metal.construct a f).scatter Real.sqrt order fuel r_in rec st = some (out, st') →
          out.scattered.direction ≠ vec3.zero := by
  have hn1 := (vec3.length_eq_one_iff rec.normal).mp hn
  have hf0 : 0 ≤ (metal.construct a f).fuzz := by
    unfold metal.construct
    simp only []
    split_ifs
    · exact hf
    · exact zero_le_one
  have hf1 : (metal.construct a f).fuzz ≤ 1 := by
    unfold metal.construct
    simp only []
    split_ifs with h
    · exact h.le
    · exact le_refl _
  have hR : (reflect (unit_vector Real.sqrt r_in.direction) rec.normal).squared_length = 1 := by
    rw [squared_length_reflect _ _ hn1]
    exact unit_vector_squared_length hd
  refine ⟨hf0, hf1, hR, (vec3.length_eq_one_iff _).mpr hR,
    add_smul_ne_zero _ s _ hR hs hf0 hf1, ?_⟩
  intro order fuel st st' out hout
  unfold metal.scatter at hout
  simp only [] at hout
  cases hr : random_in_unit_sphere order fuel st with
  | none =>
    rw [hr] at hout
    simp at hout
  | some r =>
    obtain ⟨s1, st1⟩ := r
    rw [hr] at hout
    simp only [Option.some.injEq, Prod.mk.injEq] at hout
    obtain ⟨k, _, _, hacc, hp, _⟩ := (random_in_unit_sphere_eq_some_iff order fuel st s1 st1).mp hr
    have hs1 : s1.squared_length < 1 := by
      rw [hp]
      exact hacc
    rw [← hout.1]
    exact add_smul_ne_zero _ s1 _ hR hs1 hf0 hf1

theorem metal_scatter_nondegenerate_witness :
    (0 : ℝ) ≤ 1 / 2 ∧ (⟨0, 0, 1⟩ : vec3 ℝ).length Real.sqrt = 1 ∧
      (⟨0, 0, -1⟩ : vec3 ℝ) ≠ vec3.zero ∧ (⟨1 / 2, 1 / 2, 1 / 2⟩ : vec3 ℝ).squared_length < 1 ∧
      (reflect (unit_vector Real.sqrt (⟨0, 0, -1⟩ : vec3 ℝ)) ⟨0, 0, 1⟩).squared_length = 1 ∧
      reflect (unit_vector Real.sqrt (⟨0, 0, -1⟩ : vec3 ℝ)) ⟨0, 0, 1⟩
          + (metal.construct (⟨1, 1, 1⟩ : vec3 ℝ) (1 / 2)).fuzz • (⟨1 / 2, 1 / 2, 1 / 2⟩ : vec3 ℝ)
        ≠ vec3.zero := by
  have h1 : (0 : ℝ) ≤ 1 / 2 := by norm_num
  have h2 : (⟨0, 0, 1⟩ : vec3 ℝ).length Real.sqrt = 1 := by simp [vec3.length]
  have h3 : (⟨0, 0, -1⟩ : vec3 ℝ) ≠ vec3.zero := by simp [vec3.zero]
  have h4 : (⟨1 / 2, 1 / 2, 1 / 2⟩ : vec3 ℝ).squared_length < 1 := by
    norm_num [vec3.squared_length]
  have ht := metal_scatter_nondegenerate ⟨1, 1, 1⟩ (1 / 2) ⟨⟨0, 0, 5⟩, ⟨0, 0, -1⟩⟩
    ⟨⟨0, 0, 0⟩, ⟨0, 0, 1⟩⟩ ⟨1 / 2, 1 / 2, 1 / 2⟩ h1 h2 h3 h4
  exact ⟨h1, h2, h3, h4, ht.2.2.1, ht.2.2.2.2.1⟩

/-! ## The arithmetic of `float`: checks of the model, and where exactness matters -/

/-- The bit-by-bit integer square root is the integer square root. -/
theorem F32.isqrt_aux_spec (n i r : Nat) (h1 : r * r ≤ n)
    (h2 : n < (r + 2 ^ i) * (r + 2 ^ i)) :
    F32.isqrt_aux n i r * F32.isqrt_aux n i r ≤ n ∧
      n < (F32.isqrt_aux n i r + 1) * (F32.isqrt_aux n i r + 1) := by
  induction i generalizing r with
  | zero =>
    simp only [F32.isqrt_aux]
    simpa using And.intro h1 h2
  | succ i ih =>
    simp only [F32.isqrt_aux]
    split_ifs with h
    · apply ih _ h
      have e : r + 2 ^ i + 2 ^ i = r + 2 ^ (i + 1) := by ring
      rw [e]
      exact h2
    · exact ih r h1 (not_le.mp h)

/-- Rounding to `float` at a few values: `1/3`, the ties `1 + 2^-24` (down to the even
significand) and `1 + 3 * 2^-24` (up to the even significand), a value that is a `float`
already, `1000 + 2^-20`, and the subnormal range. -/
theorem F32.round_examples :
    F32.round (1 / 3) = 11184811 / 2 ^ 25 ∧ F32.round (1 + 1 / 2 ^ 24) = 1 ∧
      F32.round (1 + 3 / 2 ^ 24) = 1 + 1 / 2 ^ 22 ∧
      F32.round (1 / 2 + 1 / 2 ^ 21) = 1 / 2 + 1 / 2 ^ 21 ∧
      F32.round (1000 + 1 / 2 ^ 20) = 1000 ∧ F32.round (-(1 / 10)) = -(13421773 / 2 ^ 27) ∧
      F32.round (1 / 2 ^ 149) = 1 / 2 ^ 149 ∧ F32.round (1 / 2 ^ 150) = 0 ∧
      F32.round (3 / 2 ^ 150) = 2 / 2 ^ 149 := by
  decide!

/-- The square root of `float` at a few values. -/
theorem F32.sqrt_examples :
    (F32.sqrt ⟨4⟩).val = 2 ∧ (F32.sqrt ⟨2⟩).val = 11863283 / 2 ^ 23 ∧
      (F32.sqrt ⟨5⟩).val = 9378749 / 2 ^ 22 ∧ (F32.sqrt ⟨7 / 8⟩).val = 15693649 / 2 ^ 24 ∧
      (F32.sqrt ⟨1 / 4⟩).val = 1 / 2 := by
  decide!

/-- C7 as stated fails in the arithmetic of the source. Hit point `(1000,1000,1000)`, normal
`(0,0,1)`, every draw `1/2 + 2^-21` (a `float` in `[0,1)`): the sample is
`s = (2^-20, 2^-20, 2^-20)`, `1000 + 2^-20` rounds to `1000`, and the direction
`(rec.p + rec.normal + s) - rec.p` that `lambertian::scatter` hands back is `(0,0,1)`, while
`rec.normal + s = (2^-20, 2^-20, 1 + 2^-20)`. The stream is constant, so the order of
evaluation of the three draws, written or reversed, makes no difference. -/
theorem lambertian_direction_ne_normal_plus_sample :
    F32.round (1 / 2 + 1 / 2 ^ 21) = 1 / 2 + 1 / 2 ^ 21 ∧
      ((random_in_unit_sphere (Equiv.refl _) 1
          (⟨fun _ => ⟨1 / 2 + 1 / 2 ^ 21⟩, 0⟩ : curandState F32)).map
        fun r => F32.vals r.1) = some (1 / 2 ^ 20, 1 / 2 ^ 20, 1 / 2 ^ 20) ∧
      (((⟨⟨⟨1 / 2⟩, ⟨1 / 2⟩, ⟨1 / 2⟩⟩⟩ : lambertian F32).scatter (Equiv.refl _) 1
          ⟨⟨⟨0⟩, ⟨0⟩, ⟨5⟩⟩, ⟨⟨0⟩, ⟨0⟩, ⟨-1⟩⟩⟩
          ⟨⟨⟨1000⟩, ⟨1000⟩, ⟨1000⟩⟩, ⟨⟨0⟩, ⟨0⟩, ⟨1⟩⟩⟩
          ⟨fun _ => ⟨1 / 2 + 1 / 2 ^ 21⟩, 0⟩).map
        fun r => (r.1.continues, F32.vals r.1.scattered.direction)) = some (true, 0, 0, 1) ∧
      (((⟨⟨⟨1 / 2⟩, ⟨1 / 2⟩, ⟨1 / 2⟩⟩⟩ : lambertian F32).scatter Fin.revPerm 1
          ⟨⟨⟨0⟩, ⟨0⟩, ⟨5⟩⟩, ⟨⟨0⟩, ⟨0⟩, ⟨-1⟩⟩⟩
          ⟨⟨⟨1000⟩, ⟨1000⟩, ⟨1000⟩⟩, ⟨⟨0⟩, ⟨0⟩, ⟨1⟩⟩⟩
          ⟨fun _ => ⟨1 / 2 + 1 / 2 ^ 21⟩, 0⟩).map
        fun r => (r.1.continues, F32.vals r.1.scattered.direction)) = some (true, 0, 0, 1) ∧
      F32.vals ((⟨⟨0⟩, ⟨0⟩, ⟨1⟩⟩ : vec3 F32) + ⟨⟨1 / 2 ^ 20⟩, ⟨1 / 2 ^ 20⟩, ⟨1 / 2 ^ 20⟩⟩)
        = (1 / 2 ^ 20, 1 / 2 ^ 20, 1 + 1 / 2 ^ 20) := by
  decide!

/-- C17 as stated fails in the arithmetic of the source. Hit point and normal `(0,1,0)`, a
vector of length exactly 1, and the draws `1/2, 2^-25, 1/2`: the sample is
`s = (0, -(1 - 2^-24), 0)`, of squared length `1 - 2^-23 < 1` and so accepted; `1 + 1 = 2`
and `2 + s.y = 1 + 2^-24` rounds to `1` (a tie, to the even significand), so the direction
`(rec.p + rec.normal + s) - rec.p` is the zero vector and its product with the normal is 0.
The three draws read the same in the reversed order of evaluation. -/
theorem lambertian_direction_zero :
    ((⟨⟨0⟩, ⟨1⟩, ⟨0⟩⟩ : vec3 F32).squared_length.val = 1 ∧
        ((⟨⟨0⟩, ⟨1⟩, ⟨0⟩⟩ : vec3 F32).length F32.sqrt).val = 1) ∧
      ((random_in_unit_sphere (Equiv.refl _) 1
          (⟨fun i => if i % 3 = 1 then ⟨1 / 2 ^ 25⟩ else ⟨1 / 2⟩, 0⟩ : curandState F32)).map
        fun r => (F32.vals r.1, r.1.squared_length.val))
        = some ((0, -(1 - 1 / 2 ^ 24), 0), 1 - 1 / 2 ^ 23) ∧
      (((⟨⟨⟨1 / 2⟩, ⟨1 / 2⟩, ⟨1 / 2⟩⟩⟩ : lambertian F32).scatter (Equiv.refl _) 1
          ⟨⟨⟨0⟩, ⟨5⟩, ⟨0⟩⟩, ⟨⟨0⟩, ⟨-1⟩, ⟨0⟩⟩⟩ ⟨⟨⟨0⟩, ⟨1⟩, ⟨0⟩⟩, ⟨⟨0⟩, ⟨1⟩, ⟨0⟩⟩⟩
          ⟨fun i => if i % 3 = 1 then ⟨1 / 2 ^ 25⟩ else ⟨1 / 2⟩, 0⟩).map
        fun r => (F32.vals r.1.scattered.direction,
          (dot r.1.scattered.direction (⟨⟨0⟩, ⟨1⟩, ⟨0⟩⟩ : vec3 F32)).val))
        = some ((0, 0, 0), 0) ∧
      (((⟨⟨⟨1 / 2⟩, ⟨1 / 2⟩, ⟨1 / 2⟩⟩⟩ : lambertian F32).scatter Fin.revPerm 1
          ⟨⟨⟨0⟩, ⟨5⟩, ⟨0⟩⟩, ⟨⟨0⟩, ⟨-1⟩, ⟨0⟩⟩⟩ ⟨⟨⟨0⟩, ⟨1⟩, ⟨0⟩⟩, ⟨⟨0⟩, ⟨1⟩, ⟨0⟩⟩⟩
          ⟨fun i => if i % 3 = 1 then ⟨1 / 2 ^ 25⟩ else ⟨1 / 2⟩, 0⟩).map
        fun r => (F32.vals r.1.scattered.direction,
          (dot r.1.scattered.direction (⟨⟨0⟩, ⟨1⟩, ⟨0⟩⟩ : vec3 F32)).val))
        = some ((0, 0, 0), 0) := by
  decide!

/-- C20 as stated fails in the arithmetic of the source. A metal constructed with `f = 1`,
incoming direction `(1,0,-1)`, normal `(0,0,1)`: `sqrt(2)` and `1/sqrt(2)` are rounded, the
mirror reflection is `R = (a, 0, a)` with `a = 11863283 / 2^24`, and its `squared_length()` and
`length()` are `1 - 2^-24`, not 1. The draws `4913933 / 2^25, 1/2, 4913933 / 2^25` give the
sample `s = (-a, 0, -a)`, accepted with squared length `1 - 2^-24 < 1`, and the direction
`R + fuzz * s` of the ray that `metal::scatter` hands back is the zero vector. The three draws
read the same in the reversed order of evaluation. -/
theorem metal_direction_zero :
    (metal.construct (⟨⟨1⟩, ⟨1⟩, ⟨1⟩⟩ : vec3 F32) ⟨1⟩).fuzz.val = 1 ∧
      (F32.vals (reflect (unit_vector F32.sqrt (⟨⟨1⟩, ⟨0⟩, ⟨-1⟩⟩ : vec3 F32)) ⟨⟨0⟩, ⟨0⟩, ⟨1⟩⟩)
          = (11863283 / 2 ^ 24, 0, 11863283 / 2 ^ 24) ∧
        (reflect (unit_vector F32.sqrt (⟨⟨1⟩, ⟨0⟩, ⟨-1⟩⟩ : vec3 F32))
          ⟨⟨0⟩, ⟨0⟩, ⟨1⟩⟩).squared_length.val = 1 - 1 / 2 ^ 24 ∧
        ((reflect (unit_vector F32.sqrt (⟨⟨1⟩, ⟨0⟩, ⟨-1⟩⟩ : vec3 F32))
          ⟨⟨0⟩, ⟨0⟩, ⟨1⟩⟩).length F32.sqrt).val = 1 - 1 / 2 ^ 24) ∧
      ((random_in_unit_sphere (Equiv.refl _) 1
          (⟨fun i => if i % 3 = 1 then ⟨1 / 2⟩ else ⟨4913933 / 2 ^ 25⟩, 0⟩ :
            curandState F32)).map
        fun r => (F32.vals r.1, r.1.squared_length.val))
        = some ((-(11863283 / 2 ^ 24), 0, -(11863283 / 2 ^ 24)), 1 - 1 / 2 ^ 24) ∧
      (((metal.construct (⟨⟨1⟩, ⟨1⟩, ⟨1⟩⟩ : vec3 F32) ⟨1⟩).scatter F32.sqrt (Equiv.refl _) 1
          ⟨⟨⟨-1⟩, ⟨0⟩, ⟨1⟩⟩, ⟨⟨1⟩, ⟨0⟩, ⟨-1⟩⟩⟩ ⟨⟨⟨0⟩, ⟨0⟩, ⟨0⟩⟩, ⟨⟨0⟩, ⟨0⟩, ⟨1⟩⟩⟩
          ⟨fun i => if i % 3 = 1 then ⟨1 / 2⟩ else ⟨4913933 / 2 ^ 25⟩, 0⟩).map
        fun r => (r.1.continues, F32.vals r.1.scattered.direction))
        = some (false, 0, 0, 0) ∧
      (((metal.construct (⟨⟨1⟩, ⟨1⟩, ⟨1⟩⟩ : vec3 F32) ⟨1⟩).scatter F32.sqrt Fin.revPerm 1
          ⟨⟨⟨-1⟩, ⟨0⟩, ⟨1⟩⟩, ⟨⟨1⟩, ⟨0⟩, ⟨-1⟩⟩⟩ ⟨⟨⟨0⟩, ⟨0⟩, ⟨0⟩⟩, ⟨⟨0⟩, ⟨0⟩, ⟨1⟩⟩⟩
          ⟨fun i => if i % 3 = 1 then ⟨1 / 2⟩ else ⟨4913933 / 2 ^ 25⟩, 0⟩).map
        fun r => (r.1.continues, F32.vals r.1.scattered.direction))
        = some (false, 0, 0, 0) := by
  decide!

end RayTracer
